import Mathlib

/-!
Verification of the battleship solving engine (`battleship.py`).

The development shallowly embeds the two classes of the source file:

* `BattleshipBoard` (placement enumeration and the rejection-sampling scenario
  generator `randomBoard`), and
* `BattleshipPlayer` (belief pruning `update_possible_ship_positions`, move
  handling `update_game_state`, population refresh `generate_random_boards`,
  targeting `take_turn`, and the query `check_all_sunk`).

Modelling conventions:

* Python `(x, y)` integer cell tuples become `Cell := ℕ × ℕ`; Python sets of
  cells become `Finset Cell`.
* Ship names (`string.ascii_lowercase[:len(ships)]`) are modelled by indices
  `0, 1, 2, ...` into the (at most 26) named ships; `dict`s keyed by names
  become lists indexed by ship index.  `tuple(string.ascii_lowercase[:n])`
  silently truncates to 26 names, hence `List.take 26` in `Board.mk0`.
* `random.random()` calls are modelled by an explicit stream `rng : ℕ → ℕ`
  together with a running position; `int(num * random.random())` yields an
  arbitrary value in `[0, num)` when `num ≥ 1` (and `0` when `num = 0`), which
  `pyIndex num (rng pos)` realises via `% num`.  Universally quantifying over
  `rng` covers every behaviour the Python generator can produce.
* The unbounded `while` retry loops of `randomBoard` receive explicit fuel;
  running out of fuel is the distinguished outcome `RBRes.spin` ("the Python
  loop is still running").  Unhandled Python exceptions (`IndexError`,
  `KeyError`, `ValueError`, `TypeError`) become `RBRes.crash`.
* Python's `randomBoard` returns `l if initial else t` (per-ship placements or
  their union); the embedding returns both components and call sites project,
  which is observationally identical.
* Iteration order of Python `set`/`Counter` over tuples is implementation
  defined; the embedding fixes a canonical enumeration (sorted by `Nat.pair`
  codes).  Every property proved below is independent of this tie order.
-/

abbrev Cell : Type := ℕ × ℕ

abbrev Placement : Type := Finset Cell

/-- A stream of random draws; position `k` models the `k`-th call of
`random.random()` in execution order. -/
abbrev Rng : Type := ℕ → ℕ

/-- The index `int(num * random.random())`: any value in `[0, num)` for
`num ≥ 1`, and `0` for `num = 0` (Python would then index position 0). -/
def pyIndex (num r : ℕ) : ℕ :=
  if num = 0 then 0 else r % num

/-- Unhandled Python exception kinds that the engine can raise. -/
inductive PyError : Type where
  | indexError
  | keyError
  | valueError
  | typeError
deriving DecidableEq, Repr

/-- Result of one pass of the inner `for name in rest_names` loop:
an exception, a collision (`end = False`, the attempt is abandoned and
retried), or a completed draw (carrying the next rng position). -/
inductive Draw (α : Type) : Type where
  | crash (e : PyError)
  | collide (pos : ℕ)
  | ok (v : α) (pos : ℕ)
deriving DecidableEq, Repr

/-- Result of a fueled run of `randomBoard` (or anything built on it):
an exception, fuel exhaustion while the Python retry loop is still spinning,
or a normal return value (with the next rng position). -/
inductive RBRes (α : Type) : Type where
  | crash (e : PyError)
  | spin
  | ok (v : α) (pos : ℕ)
deriving DecidableEq, Repr

/-- Tests whether an `RBRes` is a normal return. -/
def RBRes.isOk {α : Type} : RBRes α → Bool
  | .ok _ _ => true
  | _ => false

/-- Python `range(n)` for an `int` argument: empty when `n ≤ 0`. -/
def pyRange (n : Int) : List ℕ :=
  if n ≤ 0 then [] else List.range n.toNat

/-- The placement list generated for one ship inside
`generateComponentLayouts`: horizontal runs `{(i+temp, j)}` followed by
vertical runs `{(j, i+temp)}`, with `i` ranging over
`range(dim - length + 1)` and `j` over `range(dim)`. -/
def layoutsFor (dim len : ℕ) : List Placement :=
  (pyRange ((dim : Int) - (len : Int) + 1)).flatMap (fun i =>
    (List.range dim).map (fun j => ((List.range len).map (fun t => (i + t, j))).toFinset))
  ++ (pyRange ((dim : Int) - (len : Int) + 1)).flatMap (fun i =>
    (List.range dim).map (fun j => ((List.range len).map (fun t => (j, i + t))).toFinset))

/-- `BattleshipBoard.generateComponentLayouts`: the placement catalog,
per ship index. -/
def generateComponentLayouts (dim : ℕ) (ships : List ℕ) : List (List Placement) :=
  ships.map (layoutsFor dim)

/-- State of a `BattleshipBoard` instance. -/
structure Board : Type where
  dim : ℕ
  shipLengths : List ℕ
  possShipsDict : List (List Placement)
  possShipsNumDict : List ℕ
deriving DecidableEq

/-- Re-derivation of the catalogs on an existing board
(`self.generateComponentLayouts()`, as called by `reset`). -/
def Board.regen (b : Board) : Board :=
  { b with
    possShipsDict := generateComponentLayouts b.dim b.shipLengths
    possShipsNumDict := (generateComponentLayouts b.dim b.shipLengths).map List.length }

/-- `BattleshipBoard.__init__(dim, ships)`: ship names are the first
`min(len(ships), 26)` lowercase letters, so at most 26 ships are retained. -/
def Board.mk0 (dim : ℕ) (ships : List ℕ) : Board :=
  Board.regen { dim := dim, shipLengths := ships.take 26, possShipsDict := [], possShipsNumDict := [] }

/-- The shape required of a catalog entry: a contiguous horizontal or
vertical run of `len` cells that lies fully inside the `dim × dim` grid. -/
def IsRun (dim len : ℕ) (s : Placement) : Prop :=
  ∃ i j, i + len ≤ dim ∧ j < dim ∧
    (s = ((List.range len).map (fun t => (i + t, j))).toFinset ∨
     s = ((List.range len).map (fun t => (j, i + t))).toFinset)

/-- `self.possShipsDict[name][int(self.possShipsNumDict[name]*random.random())]`:
one random placement pick for a ship.  A missing name raises `KeyError`;
indexing an empty list (possible when the count is `0`) raises `IndexError`. -/
def pickPlacement (b : Board) (name : ℕ) (r : ℕ) : Except PyError Placement :=
  match b.possShipsDict[name]? with
  | none => .error .keyError
  | some lst =>
    match b.possShipsNumDict[name]? with
    | none => .error .keyError
    | some num =>
      match lst[pyIndex num r]? with
      | none => .error .indexError
      | some k => .ok k

/-- The `for name in rest_names` loop of one sampling attempt: pick a
placement per ship, abandon the attempt on overlap (`k & t`), otherwise
accumulate `t = t | k` and `l.append(k)`. -/
def drawShips (b : Board) (rng : Rng) : List ℕ → List Placement → Finset Cell → ℕ →
    Draw (List Placement × Finset Cell)
  | [], l, t, pos => .ok (l, t) pos
  | name :: rest, l, t, pos =>
    match pickPlacement b name (rng pos) with
    | .error e => .crash e
    | .ok k =>
      if k ∩ t ≠ ∅ then .collide (pos + 1)
      else drawShips b rng rest (l ++ [k]) (t ∪ k) (pos + 1)

/-- One attempt of the retry loop.  In the `possShipsNumDict[first_name] == 1`
branch (`mode1 = true`) the attempt starts from the pre-fixed singles
`(startL, startT)`; otherwise it first draws the leading ship afresh
(with no overlap check for it). -/
def drawAttempt (b : Board) (rng : Rng) (mode1 : Bool) (first : ℕ) (rest : List ℕ)
    (startL : List Placement) (startT : Finset Cell) (pos : ℕ) :
    Draw (List Placement × Finset Cell) :=
  if mode1 then drawShips b rng rest startL startT pos
  else
    match pickPlacement b first (rng pos) with
    | .error e => .crash e
    | .ok t0 => drawShips b rng rest [t0] t0 (pos + 1)

/-- The inner `while 1`/`while True` retry loop, with fuel. -/
def drawLoop (b : Board) (rng : Rng) (mode1 : Bool) (first : ℕ) (rest : List ℕ)
    (startL : List Placement) (startT : Finset Cell) :
    ℕ → ℕ → RBRes (List Placement × Finset Cell)
  | 0, _ => .spin
  | fuel + 1, pos =>
    match drawAttempt b rng mode1 first rest startL startT pos with
    | .crash e => .crash e
    | .collide pos' => drawLoop b rng mode1 first rest startL startT fuel pos'
    | .ok v pos' => .ok v pos'

/-- The outer `while len_r < batch_size` loop collecting successful draws. -/
def drawBatch (b : Board) (rng : Rng) (mode1 : Bool) (first : ℕ) (rest : List ℕ)
    (startL : List Placement) (startT : Finset Cell) :
    ℕ → ℕ → ℕ → RBRes (List (List Placement × Finset Cell))
  | 0, _, pos => .ok [] pos
  | count + 1, fuel, pos =>
    match drawLoop b rng mode1 first rest startL startT fuel pos with
    | .crash e => .crash e
    | .spin => .spin
    | .ok v pos' =>
      match drawBatch b rng mode1 first rest startL startT count fuel pos' with
      | .crash e => .crash e
      | .spin => .spin
      | .ok vs pos'' => .ok (v :: vs) pos''

/-- The two comprehensions of the `== 1` branch: names whose catalog count is
exactly 1 (in order), and the remaining names (in order).  A missing count
entry raises `KeyError`. -/
def splitSingles (b : Board) : List ℕ → Except PyError (List ℕ × List ℕ)
  | [] => .ok ([], [])
  | n :: ns =>
    match b.possShipsNumDict[n]? with
    | none => .error .keyError
    | some num =>
      match splitSingles b ns with
      | .error e => .error e
      | .ok (s, r) => .ok (if num = 1 then (n :: s, r) else (s, n :: r))

/-- `[self.possShipsDict[name][0] for name in ...]`: the first (only)
placement of each fully determined ship. -/
def headsOf (b : Board) : List ℕ → Except PyError (List Placement)
  | [] => .ok []
  | n :: ns =>
    match b.possShipsDict[n]? with
    | none => .error .keyError
    | some lst =>
      match lst[0]? with
      | none => .error .indexError
      | some k =>
        match headsOf b ns with
        | .error e => .error e
        | .ok ks => .ok (k :: ks)

/-- `set.union(*start_l)`: the union of a nonempty list of sets
(`TypeError` when the list is empty). -/
def unionStar (l : List Placement) : Except PyError (Finset Cell) :=
  match l with
  | [] => .error .typeError
  | x :: xs => .ok (xs.foldl (· ∪ ·) x)

/-- `BattleshipBoard.randomBoard(initial, names, batch_size)`.  Returns, per
generated board, both the per-ship placement list `l` and the merged
occupancy set `t`; Python returns `l if initial else t` and the call sites
of the embedding project accordingly. -/
def randomBoard (b : Board) (initial : Bool) (names : List ℕ) (batchSize : ℕ)
    (rng : Rng) (fuel pos : ℕ) : RBRes (List (List Placement × Finset Cell)) :=
  let names' := if initial || names.isEmpty then List.range b.shipLengths.length else names
  match names' with
  | [] => .crash .valueError
  | first :: rest =>
    match b.possShipsNumDict[first]? with
    | none => .crash .keyError
    | some numFirst =>
      if numFirst = 1 then
        match splitSingles b names' with
        | .error e => .crash e
        | .ok sr =>
          match headsOf b sr.1 with
          | .error e => .crash e
          | .ok startL =>
            match unionStar startL with
            | .error e => .crash e
            | .ok startT => drawBatch b rng true first sr.2 startL startT batchSize fuel pos
      else
        drawBatch b rng false first rest [] ∅ batchSize fuel pos

/-- One entry of `enemy_ship_statuses`. -/
structure ShipStatus : Type where
  sunk : Bool
  confirmed_pos : Finset Cell
  hit_count : ℕ
deriving DecidableEq, Inhabited

/-- State of a `BattleshipPlayer` instance. -/
structure Player : Type where
  board : Board
  enemy_ships : List Placement
  enemy_board : Finset Cell
  statuses : List ShipStatus
  n_boards : ℕ
  hits : Finset Cell
  misses : Finset Cell
  random_boards : List (Finset Cell)
  name_order : List ℕ
  target_hits : ℕ
  last_move : ℕ
  num_hits : ℕ
deriving DecidableEq

/-- Union of a list of cell sets. -/
def unionAll (l : List (Finset Cell)) : Finset Cell :=
  l.foldr (· ∪ ·) ∅

/-- `BattleshipPlayer.__init__(dim, ships, boards)`: builds the board,
draws the secret fleet (`randomBoard(initial=True)[0]`), takes its union as
`enemy_board`, and initialises all bookkeeping. -/
def new_game (dim : ℕ) (ships : List ℕ) (boards : ℕ) (rng : Rng) (fuel pos : ℕ) :
    RBRes Player :=
  let bd := Board.mk0 dim ships
  match randomBoard bd true [] 1 rng fuel pos with
  | .crash e => .crash e
  | .spin => .spin
  | .ok results pos' =>
    match results[0]? with
    | none => .crash .indexError
    | some fleetPair =>
      match unionStar fleetPair.1 with
      | .error e => .crash e
      | .ok eb =>
        .ok { board := bd
              enemy_ships := fleetPair.1
              enemy_board := eb
              statuses := List.replicate bd.shipLengths.length ⟨false, ∅, 0⟩
              n_boards := boards
              hits := ∅
              misses := ∅
              random_boards := []
              name_order := List.range bd.shipLengths.length
              target_hits := bd.shipLengths.sum
              last_move := 0
              num_hits := 0 } pos'

/-- The filter applied to one ship's candidate list by
`update_possible_ship_positions` (the ship is not fully determined). -/
def pruneOne (st : ShipStatus) (hits misses : Finset Cell) (lm : ℕ)
    (lst : List Placement) : List Placement :=
  if st.confirmed_pos ≠ ∅ then
    if lm = 1 then lst.filter (fun conf => decide (conf ∩ misses = ∅))
    else lst.filter (fun conf =>
      decide ((st.confirmed_pos ∩ conf).card = st.hit_count ∧
              st.hit_count = (hits ∩ conf).card))
  else
    if lm = 1 then lst.filter (fun conf => decide (conf ∩ misses = ∅))
    else lst.filter (fun conf => decide (hits ∩ conf = ∅))

/-- The body of the `for name in self.board.names` loop: ships whose list
already collapsed to a single entry are skipped (`continue`); otherwise the
candidate list is filtered and its stored count refreshed. -/
def pruneStep (hits misses : Finset Cell) (lm : ℕ) (sts : List ShipStatus)
    (bd : Board) (i : ℕ) : Board :=
  let lst := bd.possShipsDict.getD i []
  if lst.length = 1 then bd
  else
    let lst' := pruneOne (sts.getD i default) hits misses lm lst
    { bd with
      possShipsDict := bd.possShipsDict.set i lst'
      possShipsNumDict := bd.possShipsNumDict.set i lst'.length }

/-- `BattleshipPlayer.update_possible_ship_positions`. -/
def update_possible_ship_positions (p : Player) : Player :=
  { p with
    board := (List.range p.board.shipLengths.length).foldl
      (pruneStep p.hits p.misses p.last_move p.statuses) p.board }

/-- The `for name, ship in zip(...)` attribution loop of
`update_game_state`: the first ship containing the hit cell has its
hit count incremented, the cell added to its confirmed positions, and its
sunk flag set once the count reaches the ship's size; then `break`. -/
def attributeHit (c : Cell) : List Placement → List ShipStatus → List ShipStatus
  | [], sts => sts
  | _ :: _, [] => []
  | ship :: ships, st :: sts =>
    if c ∈ ship then
      { st with
        hit_count := st.hit_count + 1
        confirmed_pos := insert c st.confirmed_pos
        sunk := if st.hit_count + 1 = ship.card then true else st.sunk } :: sts
    else st :: attributeHit c ships sts

/-- `BattleshipPlayer.update_game_state(x, y)`. -/
def update_game_state (p : Player) (x y : ℕ) : Player :=
  let coords : Cell := (x, y)
  if coords ∈ p.enemy_board then
    if coords ∉ p.hits then
      update_possible_ship_positions
        { p with
          hits := insert coords p.hits
          num_hits := p.num_hits + 1
          last_move := 2
          statuses := attributeHit coords p.enemy_ships p.statuses }
    else p
  else if coords ∉ p.misses then
    update_possible_ship_positions
      { p with last_move := 1, misses := insert coords p.misses }
  else p

/-- Sort key of `generate_random_boards`:
`self.board.possShipsNumDict.get(x, float('inf'))`. -/
def sortKey (bd : Board) (x : ℕ) : WithTop ℕ :=
  match bd.possShipsNumDict[x]? with
  | none => ⊤
  | some v => (v : WithTop ℕ)

/-- `BattleshipPlayer.generate_random_boards`: filter the population against
the latest observation, re-sort the ship order by remaining-candidate count
(ascending, stable), and refill the population to `n_boards`. -/
def generate_random_boards (p : Player) (rng : Rng) (fuel pos : ℕ) : RBRes Player :=
  let kept :=
    if p.last_move = 1 then p.random_boards.filter (fun b => decide (b ∩ p.misses = ∅))
    else p.random_boards.filter (fun b => decide (p.hits \ b = ∅))
  let order := p.name_order.mergeSort
    (fun a b => decide (sortKey p.board a ≤ sortKey p.board b))
  match randomBoard p.board false order (p.n_boards - kept.length) rng fuel pos with
  | .crash e => .crash e
  | .spin => .spin
  | .ok results pos' =>
    .ok { p with random_boards := kept ++ results.map Prod.snd, name_order := order } pos'

/-- The sorted list of cells of a finset (by `Nat.pair` code).  This fixes a
canonical iteration order for Python sets of cells, whose real order is
implementation defined. -/
def cellList (s : Finset Cell) : List Cell :=
  ((s.image (fun c => Nat.pair c.1 c.2)).sort (· ≤ ·)).map Nat.unpair

/-- The multiplicity of a cell in `Counter(chain.from_iterable(boards))`:
the number of boards containing it. -/
def boardCount (boards : List (Finset Cell)) (c : Cell) : ℕ :=
  boards.countP (fun b => decide (c ∈ b))

/-- The key set of the counter, in canonical order. -/
def counterKeys (boards : List (Finset Cell)) : List Cell :=
  cellList (unionAll boards)

/-- `Counter(...).most_common(k)` (keys only): all keys stably sorted by
descending multiplicity, truncated to the top `k`. -/
def mostCommon (boards : List (Finset Cell)) (k : ℕ) : List Cell :=
  ((counterKeys boards).mergeSort
    (fun a b => decide (boardCount boards b ≤ boardCount boards a))).take k

/-- `BattleshipPlayer.take_turn`: refresh the population, then walk the top
`len(hits) + 1` most common tiles in reverse order and return the first one
that is not already hit (`None` if every one is). -/
def take_turn (p : Player) (rng : Rng) (fuel pos : ℕ) : RBRes (Option Cell × Player) :=
  match generate_random_boards p rng fuel pos with
  | .crash e => .crash e
  | .spin => .spin
  | .ok p' pos' =>
    .ok ((mostCommon p'.random_boards (p'.hits.card + 1)).reverse.find?
          (fun tile => decide (tile ∉ p'.hits)), p') pos'

/-- `BattleshipPlayer.check_all_sunk`. -/
def check_all_sunk (p : Player) : Bool :=
  decide (p.num_hits = p.target_hits)

/-- Reachable engine states, following the presentation shell's discipline
(`streamlit_app.py`): the player is constructed once
(`BattleshipPlayer(...)`); every script run first refreshes the population
(line 18 directly, and line 25 via `take_turn`) and only then possibly
applies a single move through one of the two buttons, after which the page
reruns.  Hence every `update_game_state` call happens on a state whose
population was just refreshed.  `take_turn` itself changes the state exactly
by `generate_random_boards`, which the `refreshed` constructor covers. -/
inductive Reach : Player → Prop where
  | started (dim : ℕ) (ships : List ℕ) (boards : ℕ) (rng : Rng) (fuel pos : ℕ)
      (p : Player) (pos' : ℕ) :
      new_game dim ships boards rng fuel pos = .ok p pos' → Reach p
  | refreshed (p : Player) (rng : Rng) (fuel pos : ℕ) (p' : Player) (pos' : ℕ) :
      Reach p → generate_random_boards p rng fuel pos = .ok p' pos' → Reach p'
  | moved (p : Player) (rng : Rng) (fuel pos : ℕ) (p' : Player) (pos' : ℕ) (x y : ℕ) :
      Reach p → generate_random_boards p rng fuel pos = .ok p' pos' →
      Reach (update_game_state p' x y)

def rngZero : Rng := fun _ => 0

/-- A placement is a legal pick for ship `n`: it is a member of that ship's
current candidate list. -/
def pickedFrom (b : Board) (n : ℕ) (k : Placement) : Prop :=
  ∃ lst, b.possShipsDict[n]? = some lst ∧ k ∈ lst

def nShips (p : Player) : ℕ := p.board.shipLengths.length

/-- The length of ship `i`. -/
def shipLen (p : Player) (i : ℕ) : ℕ := p.board.shipLengths.getD i 0

/-- The true (secret) placement of ship `i`. -/
def truthShip (p : Player) (i : ℕ) : Finset Cell := p.enemy_ships.getD i ∅

/-- The current candidate list of ship `i`. -/
def candList (p : Player) (i : ℕ) : List Placement := p.board.possShipsDict.getD i []

/-- The current status record of ship `i`. -/
def shipStat (p : Player) (i : ℕ) : ShipStatus := p.statuses.getD i default

/-- The predicate a candidate placement must satisfy to survive one run of
the `update_possible_ship_positions` filter for a (not fully determined)
ship with status `st`. -/
def keepCond (st : ShipStatus) (hits misses : Finset Cell) (lm : ℕ) (k : Placement) : Prop :=
  if st.confirmed_pos ≠ ∅ then
    if lm = 1 then k ∩ misses = ∅
    else (st.confirmed_pos ∩ k).card = st.hit_count ∧ st.hit_count = (hits ∩ k).card
  else
    if lm = 1 then k ∩ misses = ∅
    else hits ∩ k = ∅

/-- The state invariant maintained by the engine along the shell's
usage discipline. -/
structure GameInv (p : Player) : Prop where
  len_enemy : p.enemy_ships.length = nShips p
  len_stat : p.statuses.length = nShips p
  len_dict : p.board.possShipsDict.length = nShips p
  nums_eq : p.board.possShipsNumDict = p.board.possShipsDict.map List.length
  target_eq : p.target_hits = p.board.shipLengths.sum
  order_perm : p.name_order.Perm (List.range (nShips p))
  truth_card : ∀ i < nShips p, (truthShip p i).card = shipLen p i
  truth_disj : ∀ i < nShips p, ∀ j < nShips p, i ≠ j →
    Disjoint (truthShip p i) (truthShip p j)
  enemy_eq : p.enemy_board = unionAll p.enemy_ships
  truth_mem : ∀ i < nShips p, truthShip p i ∈ candList p i
  conf_eq : ∀ i < nShips p, (shipStat p i).confirmed_pos = p.hits ∩ truthShip p i
  cnt_eq : ∀ i < nShips p, (shipStat p i).hit_count = (shipStat p i).confirmed_pos.card
  hits_sub : p.hits ⊆ p.enemy_board
  miss_disj : Disjoint p.misses p.enemy_board
  num_hits_eq : p.num_hits = p.hits.card
  dict_card : ∀ i < nShips p, ∀ k ∈ candList p i, k.card = shipLen p i
  dict_miss : ∀ i < nShips p, ∀ k ∈ candList p i, Disjoint k p.misses
  dict_conf : ∀ i < nShips p, ∀ k ∈ candList p i, (shipStat p i).confirmed_pos ⊆ k
  dict_hits : ∀ i < nShips p, ∀ k ∈ candList p i, (shipStat p i).confirmed_pos ≠ ∅ →
    ((shipStat p i).confirmed_pos ∩ k).card = (shipStat p i).hit_count ∧
    (p.hits ∩ k).card = (shipStat p i).hit_count
  hits_cov : ∀ c ∈ p.hits, ∃ i, i < nShips p ∧ c ∈ (shipStat p i).confirmed_pos
  boards_card : ∀ t ∈ p.random_boards, t.card = p.board.shipLengths.sum
  boards_hits : p.last_move = 1 → ∀ t ∈ p.random_boards, p.hits ⊆ t
  boards_miss : p.last_move ≠ 1 → ∀ t ∈ p.random_boards, Disjoint t p.misses
  boards_len : p.random_boards.length ≤ p.n_boards

/-- The population state right after a refresh: full size, and every board
consistent with the entire history. -/
def PopFresh (p : Player) : Prop :=
  p.random_boards.length = p.n_boards ∧
  ∀ t ∈ p.random_boards,
    t.card = p.board.shipLengths.sum ∧ p.hits ⊆ t ∧ Disjoint t p.misses

/-- A concrete tiny game used to exercise the reachable-state theorems:
`BattleshipPlayer(dim=1, ships=[1], boards=1)` under the all-zero random
stream. -/
def wP0ex : Player :=
  { board := Board.mk0 1 [1]
    enemy_ships := [{(0, 0)}]
    enemy_board := {(0, 0)}
    statuses := [{ sunk := false, confirmed_pos := ∅, hit_count := 0 }]
    n_boards := 1
    hits := ∅
    misses := ∅
    random_boards := []
    name_order := [0]
    target_hits := 1
    last_move := 0
    num_hits := 0 }

/-- The tiny game right after its first population refresh. -/
def wP1ex : Player := { wP0ex with random_boards := [{(0, 0)}] }

theorem pyRange_of_le {dim len : ℕ} (h : len ≤ dim) :
    pyRange ((dim : Int) - (len : Int) + 1) = List.range (dim - len + 1) := by
  unfold pyRange
  rw [if_neg (by omega)]
  congr 1
  omega

theorem pyRange_of_gt {dim len : ℕ} (h : dim < len) :
    pyRange ((dim : Int) - (len : Int) + 1) = [] := by
  unfold pyRange
  rw [if_pos (by omega)]

theorem layoutsFor_length {dim len : ℕ} (h : len ≤ dim) :
    (layoutsFor dim len).length = 2 * dim * (dim - len + 1) := by
  unfold layoutsFor
  rw [pyRange_of_le h]
  simp [List.length_flatMap, Function.comp_def]
  ring

theorem layoutsFor_length_gt {dim len : ℕ} (h : dim < len) :
    (layoutsFor dim len).length = 0 := by
  unfold layoutsFor
  rw [pyRange_of_gt h]
  simp

/-- Each horizontal/vertical run list has no duplicate cells. -/
theorem run_nodup_h (i j len : ℕ) : ((List.range len).map (fun t => (i + t, j))).Nodup := by
  refine List.Nodup.map ?_ (List.nodup_range len)
  intro a b hab
  simpa using congrArg Prod.fst hab

theorem run_nodup_v (i j len : ℕ) : ((List.range len).map (fun t => (j, i + t))).Nodup := by
  refine List.Nodup.map ?_ (List.nodup_range len)
  intro a b hab
  simpa using congrArg Prod.snd hab

theorem layoutsFor_card {dim len : ℕ} {s : Placement} (hs : s ∈ layoutsFor dim len) :
    s.card = len := by
  unfold layoutsFor at hs
  rcases List.mem_append.mp hs with h | h <;>
  · rcases List.mem_flatMap.mp h with ⟨i, _, hmem⟩
    rcases List.mem_map.mp hmem with ⟨j, _, rfl⟩
    first
      | rw [List.toFinset_card_of_nodup (run_nodup_h i j len)]
      | rw [List.toFinset_card_of_nodup (run_nodup_v i j len)]
    simp

theorem layoutsFor_isRun {dim len : ℕ} (hlen : len ≤ dim) {s : Placement}
    (hs : s ∈ layoutsFor dim len) : IsRun dim len s := by
  unfold layoutsFor at hs
  rw [pyRange_of_le hlen] at hs
  rcases List.mem_append.mp hs with h | h <;>
  · rcases List.mem_flatMap.mp h with ⟨i, hi, hmem⟩
    rcases List.mem_map.mp hmem with ⟨j, hj, rfl⟩
    rw [List.mem_range] at hi hj
    exact ⟨i, j, by omega, hj, by simp⟩

theorem range_map_toFinset_nonempty {len : ℕ} (h : 1 ≤ len) (f : ℕ → Cell) :
    ((List.range len).map f).toFinset.Nonempty := by
  refine ⟨f 0, ?_⟩
  simp only [List.mem_toFinset, List.mem_map]
  exact ⟨0, List.mem_range.mpr (by omega), rfl⟩

/-- Every cell of a catalog entry lies inside the grid. -/
theorem layoutsFor_inside {dim len : ℕ} (hlen : len ≤ dim) {s : Placement}
    (hs : s ∈ layoutsFor dim len) : ∀ c ∈ s, c.1 < dim ∧ c.2 < dim := by
  rcases layoutsFor_isRun hlen hs with ⟨i, j, hij, hj, hcase | hcase⟩ <;>
  · subst hcase
    intro c hc
    simp only [List.mem_toFinset, List.mem_map, List.mem_range] at hc
    rcases hc with ⟨t, ht, rfl⟩
    exact ⟨by omega, by omega⟩

theorem unionAll_nil : unionAll [] = ∅ := rfl

theorem unionAll_cons (s : Finset Cell) (l : List (Finset Cell)) :
    unionAll (s :: l) = s ∪ unionAll l := rfl

theorem mem_unionAll {c : Cell} : ∀ {l : List (Finset Cell)},
    c ∈ unionAll l ↔ ∃ s ∈ l, c ∈ s := by
  intro l
  induction l with
  | nil => simp [unionAll_nil]
  | cons s l ih => simp [unionAll_cons, ih]

theorem foldl_union_eq (l : List (Finset Cell)) :
    ∀ a : Finset Cell, l.foldl (· ∪ ·) a = a ∪ unionAll l := by
  induction l with
  | nil => intro a; simp [unionAll_nil]
  | cons s l ih =>
    intro a
    simp only [List.foldl_cons, unionAll_cons, ih (a ∪ s)]
    rw [Finset.union_assoc]

theorem unionStar_ok {l : List Placement} {t : Finset Cell}
    (h : unionStar l = .ok t) : t = unionAll l ∧ l ≠ [] := by
  match l with
  | [] => simp [unionStar] at h
  | x :: xs =>
    simp only [unionStar, Except.ok.injEq] at h
    subst h
    exact ⟨by rw [foldl_union_eq, unionAll_cons], by simp⟩

theorem disjoint_unionAll_right {s : Finset Cell} : ∀ {l : List (Finset Cell)},
    Disjoint s (unionAll l) ↔ ∀ x ∈ l, Disjoint s x := by
  intro l
  induction l with
  | nil => simp [unionAll_nil]
  | cons x l ih => simp [unionAll_cons, Finset.disjoint_union_right, ih]

theorem card_unionAll_of_pairwise : ∀ {l : List (Finset Cell)},
    l.Pairwise (fun a c => Disjoint a c) →
    (unionAll l).card = (l.map Finset.card).sum := by
  intro l
  induction l with
  | nil => simp [unionAll_nil]
  | cons s l ih =>
    intro hpw
    rcases List.pairwise_cons.mp hpw with ⟨hd, htl⟩
    rw [unionAll_cons, Finset.card_union_of_disjoint, ih htl, List.map_cons, List.sum_cons]
    exact disjoint_unionAll_right.mpr hd

theorem pickPlacement_ok {b : Board} {n r : ℕ} {k : Placement}
    (h : pickPlacement b n r = .ok k) : pickedFrom b n k := by
  unfold pickPlacement at h
  split at h
  · cases h
  next lst hd =>
    split at h
    · cases h
    next num hn =>
      split at h
      · cases h
      next k' hi =>
        cases h
        obtain ⟨hlt, rfl⟩ := List.getElem?_eq_some_iff.mp hi
        exact ⟨lst, hd, List.getElem_mem hlt⟩

theorem drawShips_ok_spec {b : Board} {rng : Rng} :
    ∀ {rest : List ℕ} {l l' : List Placement} {t t' : Finset Cell} {pos pos' : ℕ},
    drawShips b rng rest l t pos = .ok (l', t') pos' →
    ∃ ks, l' = l ++ ks ∧ List.Forall₂ (pickedFrom b) rest ks ∧
      t' = t ∪ unionAll ks ∧ ks.Pairwise (fun a c => Disjoint a c) ∧
      ∀ k ∈ ks, Disjoint k t := by
  intro rest
  induction rest with
  | nil =>
    intro l l' t t' pos pos' h
    simp only [drawShips, Draw.ok.injEq, Prod.mk.injEq] at h
    obtain ⟨⟨rfl, rfl⟩, -⟩ := h
    exact ⟨[], by simp, List.Forall₂.nil, by simp [unionAll_nil], List.Pairwise.nil, by simp⟩
  | cons name rest ih =>
    intro l l' t t' pos pos' h
    simp only [drawShips] at h
    split at h
    · cases h
    next k hp =>
      split at h
      · cases h
      next hk =>
        push_neg at hk
        obtain ⟨ks, rfl, hf, rfl, hpw, hdisj⟩ := ih h
        have hkt : Disjoint k t := Finset.disjoint_left.mpr (by
          intro a ha hat
          exact absurd hk (by
            apply Finset.nonempty_iff_ne_empty.mp
            exact ⟨a, Finset.mem_inter.mpr ⟨ha, hat⟩⟩))
        refine ⟨k :: ks, by simp, List.forall₂_cons.mpr ⟨pickPlacement_ok hp, hf⟩, ?_, ?_, ?_⟩
        · rw [unionAll_cons, Finset.union_assoc]
        · refine List.pairwise_cons.mpr ⟨?_, hpw⟩
          intro k' hk'
          have := hdisj k' hk'
          rw [Finset.disjoint_union_right] at this
          exact (this.2).symm
        · intro x hx
          rcases List.mem_cons.mp hx with rfl | hx
          · exact hkt
          · have := hdisj x hx
            rw [Finset.disjoint_union_right] at this
            exact this.1

theorem unionAll_append (l1 l2 : List (Finset Cell)) :
    unionAll (l1 ++ l2) = unionAll l1 ∪ unionAll l2 := by
  induction l1 with
  | nil => simp [unionAll_nil]
  | cons s l ih => simp [unionAll_cons, ih, Finset.union_assoc]

theorem forall₂_mem_left {α β : Type} {R : α → β → Prop} :
    ∀ {l₁ : List α} {l₂ : List β}, List.Forall₂ R l₁ l₂ → ∀ a ∈ l₁, ∃ c ∈ l₂, R a c := by
  intro l₁ l₂ h
  induction h with
  | nil => simp
  | cons hr _ ih =>
    intro a ha
    rcases List.mem_cons.mp ha with rfl | ha
    · exact ⟨_, List.mem_cons_self _ _, hr⟩
    · rcases ih a ha with ⟨c, hc, hrc⟩
      exact ⟨c, List.mem_cons_of_mem _ hc, hrc⟩

theorem drawLoop_ok {b : Board} {rng : Rng} {mode1 : Bool} {first : ℕ} {rest : List ℕ}
    {startL : List Placement} {startT : Finset Cell} :
    ∀ {fuel pos : ℕ} {v : List Placement × Finset Cell} {pos' : ℕ},
    drawLoop b rng mode1 first rest startL startT fuel pos = .ok v pos' →
    ∃ pos0, drawAttempt b rng mode1 first rest startL startT pos0 = .ok v pos' := by
  intro fuel
  induction fuel with
  | zero => intro pos v pos' h; cases h
  | succ fuel ih =>
    intro pos v pos' h
    simp only [drawLoop] at h
    split at h
    · cases h
    · exact ih h
    · next v0 pos0 heq =>
        cases h
        exact ⟨pos, heq⟩

theorem drawBatch_ok {b : Board} {rng : Rng} {mode1 : Bool} {first : ℕ} {rest : List ℕ}
    {startL : List Placement} {startT : Finset Cell} :
    ∀ {count fuel pos : ℕ} {vs : List (List Placement × Finset Cell)} {pos' : ℕ},
    drawBatch b rng mode1 first rest startL startT count fuel pos = .ok vs pos' →
    vs.length = count ∧
      ∀ v ∈ vs, ∃ pos0 pos1,
        drawAttempt b rng mode1 first rest startL startT pos0 = .ok v pos1 := by
  intro count
  induction count with
  | zero =>
    intro fuel pos vs pos' h
    simp only [drawBatch, RBRes.ok.injEq] at h
    obtain ⟨rfl, -⟩ := h
    exact ⟨rfl, by simp⟩
  | succ count ih =>
    intro fuel pos vs pos' h
    simp only [drawBatch] at h
    split at h
    · cases h
    · cases h
    next v0 pos0 hloop =>
      split at h
      · cases h
      · cases h
      next vs0 pos1 hbatch =>
        cases h
        obtain ⟨hlen, hmem⟩ := ih hbatch
        refine ⟨by simp [hlen], ?_⟩
        intro v hv
        rcases List.mem_cons.mp hv with rfl | hv
        · obtain ⟨q, hq⟩ := drawLoop_ok hloop
          exact ⟨q, pos0, hq⟩
        · exact hmem v hv

theorem splitSingles_ok {b : Board} :
    ∀ {ns s r : List ℕ}, splitSingles b ns = .ok (s, r) →
    s = ns.filter (fun n => decide (b.possShipsNumDict[n]? = some 1)) ∧
    r = ns.filter (fun n => !decide (b.possShipsNumDict[n]? = some 1)) := by
  intro ns
  induction ns with
  | nil =>
    intro s r h
    simp only [splitSingles, Except.ok.injEq, Prod.mk.injEq] at h
    obtain ⟨rfl, rfl⟩ := h
    simp
  | cons n ns ih =>
    intro s r h
    simp only [splitSingles] at h
    split at h
    · cases h
    next num hnum =>
      split at h
      · cases h
      next s0 r0 hrec =>
        obtain ⟨hs0, hr0⟩ := ih hrec
        by_cases h1 : num = 1
        · subst h1
          rw [if_pos rfl] at h
          cases h
          constructor
          · rw [List.filter_cons_of_pos (by simp [hnum]), hs0]
          · rw [List.filter_cons_of_neg (by simp [hnum]), hr0]
        · rw [if_neg h1] at h
          cases h
          constructor
          · rw [List.filter_cons_of_neg (by simp [hnum, h1]), hs0]
          · rw [List.filter_cons_of_pos (by simp [hnum, h1]), hr0]

theorem headsOf_ok {b : Board} :
    ∀ {ns : List ℕ} {ks : List Placement}, headsOf b ns = .ok ks →
    List.Forall₂ (fun n k => ∃ lst, b.possShipsDict[n]? = some lst ∧ lst[0]? = some k) ns ks := by
  intro ns
  induction ns with
  | nil =>
    intro ks h
    simp only [headsOf, Except.ok.injEq] at h
    subst h
    exact List.Forall₂.nil
  | cons n ns ih =>
    intro ks h
    simp only [headsOf] at h
    split at h
    · cases h
    next lst hd =>
      split at h
      · cases h
      next k hk =>
        split at h
        · cases h
        next ks0 hrec =>
          cases h
          exact List.forall₂_cons.mpr ⟨⟨lst, hd, hk⟩, ih hrec⟩

theorem heads_eq_map {b : Board} {S : ℕ → Finset Cell} :
    ∀ {ns : List ℕ} {ks : List Placement},
    List.Forall₂ (fun n k => ∃ lst, b.possShipsDict[n]? = some lst ∧ lst[0]? = some k) ns ks →
    (∀ n ∈ ns, ∃ lst, b.possShipsDict[n]? = some lst ∧ lst = [S n]) →
    ks = ns.map S := by
  intro ns ks hf
  induction hf with
  | nil => intro; simp
  | cons hr hf ih =>
    next n k ns' ks' =>
      intro hS
      rcases hr with ⟨lst, hd, hk0⟩
      rcases hS n (List.mem_cons_self n ns') with ⟨lst', hd', hl'⟩
      rw [hd'] at hd
      cases hd
      subst hl'
      simp only [List.getElem?_cons_zero, Option.some.injEq] at hk0
      subst hk0
      rw [List.map_cons]
      rw [ih (fun m hm => hS m (List.mem_cons_of_mem _ hm))]

/-- Structure of one successful draw of `randomBoard`, uniformly over the two
branches.  The hypotheses cover what the `== 1` branch needs about fully
determined ships: `HS` names the unique entry of each singleton candidate
list and `Hpw` states that those entries do not overlap each other. -/
theorem randomBoard_mem_spec {b : Board} (initial : Bool) (names : List ℕ)
    {batch : ℕ} {rng : Rng} {fuel pos : ℕ}
    {vs : List (List Placement × Finset Cell)} {pos' : ℕ} {S : ℕ → Finset Cell}
    (names' : List ℕ)
    (hnames : (if initial || names.isEmpty then List.range b.shipLengths.length else names) = names')
    (hnodup : names'.Nodup)
    (HS : ∀ n ∈ names', b.possShipsNumDict[n]? = some 1 →
      ∃ lst, b.possShipsDict[n]? = some lst ∧ lst = [S n])
    (Hpw : ∀ m ∈ names', ∀ n ∈ names', m ≠ n → Disjoint (S m) (S n))
    (h : randomBoard b initial names batch rng fuel pos = .ok vs pos') :
    vs.length = batch ∧ names' ≠ [] ∧
    ∀ v ∈ vs, ∃ names2 : List ℕ,
      names2.Perm names' ∧
      (b.possShipsNumDict[names'.headD 0]? ≠ some 1 → names2 = names') ∧
      List.Forall₂ (pickedFrom b) names2 v.1 ∧
      v.2 = unionAll v.1 ∧ v.1.Pairwise (fun a c => Disjoint a c) := by
  simp only [randomBoard] at h
  rw [hnames] at h
  split at h
  · cases h
  next first rest =>
    split at h
    · cases h
    next numFirst hnum =>
      split at h
      case isTrue h1 =>
        subst h1
        split at h
        · cases h
        next sr hsplit =>
          obtain ⟨singles, others⟩ := sr
          split at h
          · cases h
          next startL hheads =>
            split at h
            · cases h
            next startT hstar =>
              obtain ⟨hsing, hoth⟩ := splitSingles_ok hsplit
              obtain ⟨hstar_eq, hne⟩ := unionStar_ok hstar
              refine ⟨(drawBatch_ok h).1, by simp, ?_⟩
              intro v hv
              obtain ⟨lv, tv⟩ := v
              obtain ⟨q0, q1, hatt⟩ := (drawBatch_ok h).2 _ hv
              unfold drawAttempt at hatt
              rw [if_pos rfl] at hatt
              obtain ⟨ks, hl, hf2, ht, hpwks, hdiss⟩ := drawShips_ok_spec hatt
              have hheads2 := headsOf_ok hheads
              have hsingmem : ∀ n ∈ singles,
                  n ∈ (first :: rest) ∧ b.possShipsNumDict[n]? = some 1 := by
                intro n hnmem
                rw [hsing] at hnmem
                have := List.mem_filter.mp hnmem
                exact ⟨this.1, by simpa using this.2⟩
              have hstartL : startL = singles.map S :=
                heads_eq_map hheads2 (fun n hnmem =>
                  HS n (hsingmem n hnmem).1 (hsingmem n hnmem).2)
              have hpwL : startL.Pairwise (fun a c => Disjoint a c) := by
                rw [hstartL, List.pairwise_map]
                have hnd : singles.Nodup := by
                  rw [hsing]; exact hnodup.filter _
                refine hnd.imp_of_mem ?_
                intro m n hm hn hmn
                exact Hpw m (hsingmem m hm).1 n (hsingmem n hn).1 hmn
              refine ⟨singles ++ others, ?_, ?_, ?_, ?_, ?_⟩
              · rw [hsing, hoth]
                exact List.filter_append_perm _ _
              · intro hne
                exact absurd hnum hne
              · rw [hl]
                refine List.rel_append ?_ hf2
                refine hheads2.imp ?_
                intro n k hr
                rcases hr with ⟨lst, hd, hk0⟩
                obtain ⟨hlt, rfl⟩ := List.getElem?_eq_some_iff.mp hk0
                exact ⟨lst, hd, List.getElem_mem hlt⟩
              · rw [ht, hl, unionAll_append, hstar_eq]
              · rw [hl]
                rw [List.pairwise_append]
                refine ⟨hpwL, hpwks, ?_⟩
                intro a ha k hk
                have := hdiss k hk
                rw [hstar_eq, disjoint_unionAll_right] at this
                exact (this a ha).symm
      case isFalse h1 =>
        refine ⟨(drawBatch_ok h).1, by simp, ?_⟩
        intro v hv
        obtain ⟨lv, tv⟩ := v
        obtain ⟨q0, q1, hatt⟩ := (drawBatch_ok h).2 _ hv
        unfold drawAttempt at hatt
        rw [if_neg (by simp)] at hatt
        split at hatt
        · cases hatt
        next k0 hp0 =>
          obtain ⟨ks, hl, hf2, ht, hpwks, hdiss⟩ := drawShips_ok_spec hatt
          refine ⟨first :: rest, List.Perm.refl _, fun _ => rfl, ?_, ?_, ?_⟩
          · rw [hl]
            exact List.forall₂_cons.mpr ⟨pickPlacement_ok hp0, by simpa using hf2⟩
          · rw [ht, hl]
            simp [unionAll_cons]
          · rw [hl]
            refine List.pairwise_cons.mpr ⟨?_, hpwks⟩
            intro k hk
            exact (hdiss k hk).symm

theorem map_getD_range {α : Type} (d : α) :
    ∀ l : List α, (List.range l.length).map (fun i => l.getD i d) = l := by
  intro l
  induction l with
  | nil => simp
  | cons a l ih =>
    rw [List.length_cons, List.range_succ_eq_map, List.map_cons, List.map_map]
    refine congrArg₂ List.cons ?_ ?_
    · exact List.getD_cons_zero
    · refine Eq.trans (List.map_congr_left ?_) ih
      intro i _
      simp [Function.comp_def, List.getD_cons_succ]

theorem forall₂_picked_facts {b : Board} {M : Finset Cell} {lenOf : ℕ → ℕ}
    {C : ℕ → Finset Cell} :
    ∀ {names2 : List ℕ} {lv : List Placement},
    List.Forall₂ (pickedFrom b) names2 lv →
    (∀ n ∈ names2, ∀ k, pickedFrom b n k → Disjoint k M ∧ k.card = lenOf n ∧ C n ⊆ k) →
    lv.map Finset.card = names2.map lenOf ∧ (∀ k ∈ lv, Disjoint k M) ∧
    ∀ n ∈ names2, C n ⊆ unionAll lv := by
  intro names2 lv hf
  induction hf with
  | nil => intro; exact ⟨rfl, by simp, by simp⟩
  | cons hr hf ih =>
    next n k ns ks =>
      intro Hpick
      obtain ⟨hmap, hdis, hcov⟩ := ih (fun m hm => Hpick m (List.mem_cons_of_mem _ hm))
      obtain ⟨hdk, hck, hCk⟩ := Hpick n (List.mem_cons_self n ns) k hr
      refine ⟨?_, ?_, ?_⟩
      · rw [List.map_cons, List.map_cons, hmap, hck]
      · intro x hx
        rcases List.mem_cons.mp hx with rfl | hx
        · exact hdk
        · exact hdis x hx
      · intro m hm
        rcases List.mem_cons.mp hm with rfl | hm
        · exact hCk.trans (by rw [unionAll_cons]; exact Finset.subset_union_left)
        · exact (hcov m hm).trans (by rw [unionAll_cons]; exact Finset.subset_union_right)

theorem pickPlacement_eval {b : Board} {n r : ℕ} {lst : List Placement} {num : ℕ}
    {k : Placement} (hd : b.possShipsDict[n]? = some lst)
    (hn : b.possShipsNumDict[n]? = some num) (hk : lst[pyIndex num r]? = some k) :
    pickPlacement b n r = .ok k := by
  unfold pickPlacement
  simp only [hd, hn, hk]

/-- `randomBoard` never returns fewer (or more) than `batch_size` boards. -/
theorem randomBoard_ok_length {b : Board} {initial : Bool} {names : List ℕ}
    {batch : ℕ} {rng : Rng} {fuel pos : ℕ}
    {vs : List (List Placement × Finset Cell)} {pos' : ℕ}
    (h : randomBoard b initial names batch rng fuel pos = .ok vs pos') :
    vs.length = batch := by
  simp only [randomBoard] at h
  generalize (if initial || names.isEmpty then List.range b.shipLengths.length else names) = nv at h
  split at h
  · cases h
  next first rest =>
    split at h
    · cases h
    next numFirst hnum =>
      split at h
      · split at h
        · cases h
        next sr hsplit =>
          split at h
          · cases h
          next startL hheads =>
            split at h
            · cases h
            next startT hstar =>
              exact (drawBatch_ok h).1
      · exact (drawBatch_ok h).1

theorem mk0_shipLengths (dim : ℕ) (ships : List ℕ) (h26 : ships.length ≤ 26) :
    (Board.mk0 dim ships).shipLengths = ships := by
  simp [Board.mk0, Board.regen, List.take_of_length_le h26]

theorem mk0_dict (dim : ℕ) (ships : List ℕ) (n : ℕ) :
    (Board.mk0 dim ships).possShipsDict[n]? =
      ((ships.take 26)[n]?).map (layoutsFor dim) := by
  show (generateComponentLayouts dim (ships.take 26))[n]? = _
  rw [generateComponentLayouts, List.getElem?_map]

theorem mk0_num (dim : ℕ) (ships : List ℕ) (n : ℕ) :
    (Board.mk0 dim ships).possShipsNumDict[n]? =
      ((ships.take 26)[n]?).map (fun len => (layoutsFor dim len).length) := by
  show ((generateComponentLayouts dim (ships.take 26)).map List.length)[n]? = _
  rw [List.getElem?_map, generateComponentLayouts, List.getElem?_map, Option.map_map]
  rfl

theorem layoutsFor_length_ne_one (dim len : ℕ) : (layoutsFor dim len).length ≠ 1 := by
  by_cases h : len ≤ dim
  · rw [layoutsFor_length h, mul_assoc]
    omega
  · rw [layoutsFor_length_gt (by omega)]
    omega

/-- C4: for every board dimension `D` and ship length `L ≤ D`, the freshly
enumerated catalog for that ship (`generateComponentLayouts`) has exactly
`2*D*(D-L+1)` entries, each a set of exactly `L` cells forming one contiguous
horizontal or vertical run fully inside the `[0,D) × [0,D)` grid. -/
theorem placementCatalog_spec (dim : ℕ) (ships : List ℕ) (i len : ℕ)
    (hi : ships[i]? = some len) (h1 : 1 ≤ len) (hld : len ≤ dim) :
    (generateComponentLayouts dim ships)[i]? = some (layoutsFor dim len) ∧
    (layoutsFor dim len).length = 2 * dim * (dim - len + 1) ∧
    ∀ s ∈ layoutsFor dim len, s.card = len ∧ IsRun dim len s := by
  refine ⟨?_, layoutsFor_length hld, fun s hs => ⟨layoutsFor_card hs, layoutsFor_isRun hld hs⟩⟩
  rw [generateComponentLayouts, List.getElem?_map, hi]
  rfl

/-- Witness for C4 at `D = 3`, `L = 2`. -/
theorem placementCatalog_spec_witness :
    (generateComponentLayouts 3 [2])[0]? = some (layoutsFor 3 2) ∧
    (layoutsFor 3 2).length = 2 * 3 * (3 - 2 + 1) ∧
    ∀ s ∈ layoutsFor 3 2, s.card = 2 ∧ IsRun 3 2 s :=
  placementCatalog_spec 3 [2] 0 2 (by decide) (by decide) (by decide)

/-- C3: every fleet produced by `randomBoard(initial=True)` on a freshly
generated board consists of pairwise-disjoint placements, one per ship, whose
union has exactly `sum(ships)` cells (and the merged occupancy set is that
union). -/
theorem fleet_spec (dim : ℕ) (ships : List ℕ) (h26 : ships.length ≤ 26)
    (batch : ℕ) (rng : Rng) (fuel pos : ℕ)
    {vs : List (List Placement × Finset Cell)} {pos' : ℕ}
    (h : randomBoard (Board.mk0 dim ships) true [] batch rng fuel pos = .ok vs pos') :
    ∀ v ∈ vs,
      v.1.Pairwise (fun a c => Disjoint a c) ∧
      v.1.length = ships.length ∧
      (unionAll v.1).card = ships.sum ∧
      v.2 = unionAll v.1 := by
  have htake : ships.take 26 = ships := List.take_of_length_le h26
  have hspec := randomBoard_mem_spec (S := fun _ => ∅) (b := Board.mk0 dim ships)
    true [] (List.range (Board.mk0 dim ships).shipLengths.length)
    rfl (List.nodup_range _)
    (by
      intro n hn h1
      rw [mk0_num] at h1
      exfalso
      cases hx : (ships.take 26)[n]? with
      | none => rw [hx] at h1; cases h1
      | some len =>
        rw [hx] at h1
        simp at h1
        exact layoutsFor_length_ne_one dim len h1)
    (by intro m _ n _ _; exact Finset.disjoint_empty_left _)
    h
  intro v hv
  obtain ⟨-, -, hmem⟩ := hspec
  obtain ⟨names2, hperm, -, hf2, hunion, hpw⟩ := hmem v hv
  have hlen0 : (Board.mk0 dim ships).shipLengths.length = ships.length := by
    rw [mk0_shipLengths dim ships h26]
  have hpick : ∀ n ∈ names2, ∀ k, pickedFrom (Board.mk0 dim ships) n k →
      Disjoint k (∅ : Finset Cell) ∧ k.card = (fun i => ships.getD i 0) n ∧
      (fun _ => (∅ : Finset Cell)) n ⊆ k := by
    intro n hn k hk
    rcases hk with ⟨lst, hd, hkl⟩
    rw [mk0_dict, htake] at hd
    have hn' : n < ships.length := by
      have := hperm.mem_iff.mp hn
      rw [List.mem_range, hlen0] at this
      exact this
    rw [List.getElem?_eq_getElem hn'] at hd
    simp at hd
    subst hd
    refine ⟨Finset.disjoint_empty_right _, ?_, Finset.empty_subset _⟩
    rw [layoutsFor_card hkl]
    show ships[n] = ships.getD n 0
    rw [List.getD_eq_getElem?_getD, List.getElem?_eq_getElem hn']
    rfl
  obtain ⟨hmap, -, -⟩ := forall₂_picked_facts hf2 hpick
  refine ⟨hpw, ?_, ?_, hunion⟩
  · rw [← hf2.length_eq, hperm.length_eq, List.length_range, hlen0]
  · rw [card_unionAll_of_pairwise hpw, hmap]
    have : (names2.map (fun i => ships.getD i 0)).sum =
        ((List.range ships.length).map (fun i => ships.getD i 0)).sum := by
      refine List.Perm.sum_eq ?_
      refine List.Perm.map _ ?_
      rw [← hlen0]
      exact hperm
    rw [this, map_getD_range 0 ships]

/-- Witness for C3: a concrete successful fleet draw on a 2×2 board with one
ship of length 1. -/
theorem fleet_spec_witness :
    ([({((0 : ℕ), (0 : ℕ))} : Finset Cell)] : List Placement).Pairwise (fun a c => Disjoint a c) ∧
    ([({((0 : ℕ), (0 : ℕ))} : Finset Cell)] : List Placement).length = [1].length ∧
    (unionAll [({((0 : ℕ), (0 : ℕ))} : Finset Cell)]).card = [1].sum ∧
    ({((0 : ℕ), (0 : ℕ))} : Finset Cell) = unionAll [({((0 : ℕ), (0 : ℕ))} : Finset Cell)] :=
  @fleet_spec 2 [1] (by decide) 1 rngZero 5 0
    [([{((0 : ℕ), (0 : ℕ))}], {((0 : ℕ), (0 : ℕ))})] 1
    (by decide) ([{((0 : ℕ), (0 : ℕ))}], {((0 : ℕ), (0 : ℕ))}) (by decide)

theorem pickPlacement_empty {b : Board} {n r : ℕ}
    (hd : b.possShipsDict[n]? = some []) :
    ∃ e, pickPlacement b n r = .error e := by
  unfold pickPlacement
  simp only [hd]
  cases hn : b.possShipsNumDict[n]? with
  | none => exact ⟨.keyError, by simp only [hn]⟩
  | some num => exact ⟨.indexError, by simp only [hn, List.getElem?_nil]⟩

theorem drawShips_not_ok {b : Board} {rng : Rng} :
    ∀ {rest : List ℕ} {l : List Placement} {t : Finset Cell} {pos : ℕ},
    (∃ n ∈ rest, b.possShipsDict[n]? = some []) →
    ∀ {v : List Placement × Finset Cell} {q : ℕ},
    drawShips b rng rest l t pos ≠ .ok v q := by
  intro rest
  induction rest with
  | nil => rintro l t pos ⟨n, hn, -⟩; cases hn
  | cons name rest ih =>
    rintro l t pos ⟨n, hn, hbad⟩ v q h
    simp only [drawShips] at h
    rcases List.mem_cons.mp hn with rfl | hn
    · obtain ⟨e, he⟩ := pickPlacement_empty (r := rng pos) hbad
      rw [he] at h
      cases h
    · cases hp : pickPlacement b name (rng pos) with
      | error e => rw [hp] at h; cases h
      | ok k =>
        simp only [hp] at h
        by_cases hk : k ∩ t ≠ ∅
        · rw [if_pos hk] at h; cases h
        · rw [if_neg hk] at h
          exact ih ⟨n, hn, hbad⟩ h

theorem drawAttempt_not_ok {b : Board} {rng : Rng} {mode1 : Bool} {first : ℕ}
    {rest : List ℕ} {startL : List Placement} {startT : Finset Cell} {pos : ℕ}
    (Hb : (mode1 = false ∧ b.possShipsDict[first]? = some []) ∨
      (∃ n ∈ rest, b.possShipsDict[n]? = some []))
    {v : List Placement × Finset Cell} {q : ℕ} :
    drawAttempt b rng mode1 first rest startL startT pos ≠ .ok v q := by
  intro h
  unfold drawAttempt at h
  cases mode1 with
  | true =>
    rw [if_pos rfl] at h
    rcases Hb with ⟨hfalse, -⟩ | hbad
    · cases hfalse
    · exact drawShips_not_ok hbad h
  | false =>
    rw [if_neg Bool.false_ne_true] at h
    rcases Hb with ⟨-, hempty⟩ | hbad
    · obtain ⟨e, he⟩ := pickPlacement_empty (r := rng pos) hempty
      rw [he] at h
      cases h
    · cases hp : pickPlacement b first (rng pos) with
      | error e => rw [hp] at h; cases h
      | ok t0 =>
        simp only [hp] at h
        exact drawShips_not_ok hbad h

theorem drawLoop_not_ok {b : Board} {rng : Rng} {mode1 : Bool} {first : ℕ}
    {rest : List ℕ} {startL : List Placement} {startT : Finset Cell}
    (Hb : (mode1 = false ∧ b.possShipsDict[first]? = some []) ∨
      (∃ n ∈ rest, b.possShipsDict[n]? = some [])) :
    ∀ {fuel pos : ℕ} {v : List Placement × Finset Cell} {q : ℕ},
    drawLoop b rng mode1 first rest startL startT fuel pos ≠ .ok v q := by
  intro fuel
  induction fuel with
  | zero => intro pos v q h; cases h
  | succ fuel ih =>
    intro pos v q h
    simp only [drawLoop] at h
    split at h
    · cases h
    · exact ih h
    next v0 q0 hatt =>
      exact drawAttempt_not_ok Hb hatt

theorem drawBatch_not_ok {b : Board} {rng : Rng} {mode1 : Bool} {first : ℕ}
    {rest : List ℕ} {startL : List Placement} {startT : Finset Cell} {count : ℕ}
    (hcount : 1 ≤ count)
    (Hb : (mode1 = false ∧ b.possShipsDict[first]? = some []) ∨
      (∃ n ∈ rest, b.possShipsDict[n]? = some []))
    {fuel pos : ℕ} {vs : List (List Placement × Finset Cell)} {q : ℕ} :
    drawBatch b rng mode1 first rest startL startT count fuel pos ≠ .ok vs q := by
  intro h
  match count, hcount with
  | count + 1, _ =>
    simp only [drawBatch] at h
    split at h
    · cases h
    · cases h
    next v0 q0 hloop =>
      exact drawLoop_not_ok Hb hloop

theorem randomBoard_not_ok {b : Board} {initial : Bool} {names : List ℕ}
    {batch : ℕ} {rng : Rng} {fuel pos : ℕ} {names' : List ℕ}
    (hnames : (if initial || names.isEmpty then List.range b.shipLengths.length else names) = names')
    (hbad : ∃ n ∈ names', b.possShipsDict[n]? = some [] ∧ b.possShipsNumDict[n]? = some 0)
    (hbatch : 1 ≤ batch)
    {vs : List (List Placement × Finset Cell)} {pos' : ℕ} :
    randomBoard b initial names batch rng fuel pos ≠ .ok vs pos' := by
  intro h
  simp only [randomBoard] at h
  rw [hnames] at h
  obtain ⟨n, hnmem, hdict, hnum⟩ := hbad
  split at h
  · cases h
  next first rest =>
    split at h
    · cases h
    next numFirst hnumF =>
      split at h
      next h1 =>
        subst h1
        split at h
        · cases h
        next sr hsplit =>
          split at h
          · cases h
          next startL hheads =>
            split at h
            · cases h
            next startT hstar =>
              obtain ⟨-, hoth⟩ := splitSingles_ok hsplit
              refine drawBatch_not_ok hbatch (Or.inr ⟨n, ?_, hdict⟩) h
              rw [hoth]
              refine List.mem_filter.mpr ⟨hnmem, ?_⟩
              rw [hnum]
              decide
      next h1 =>
        rcases List.mem_cons.mp hnmem with rfl | hn
        · exact drawBatch_not_ok hbatch (Or.inl ⟨rfl, hdict⟩) h
        · exact drawBatch_not_ok hbatch (Or.inr ⟨n, hn, hdict⟩) h

/-- On the 1×1 board with two ships of length 1, every placement of either
ship is the single cell `(0,0)`. -/
theorem c8_pick (n r : ℕ) (hn : n = 0 ∨ n = 1) :
    pickPlacement (Board.mk0 1 [1, 1]) n r = .ok ({((0 : ℕ), (0 : ℕ))} : Finset Cell) := by
  have hd : (Board.mk0 1 [1, 1]).possShipsDict[n]? =
      some [({((0 : ℕ), (0 : ℕ))} : Finset Cell), {((0 : ℕ), (0 : ℕ))}] := by
    rcases hn with rfl | rfl <;> decide
  have hnum : (Board.mk0 1 [1, 1]).possShipsNumDict[n]? = some 2 := by
    rcases hn with rfl | rfl <;> decide
  refine pickPlacement_eval hd hnum ?_
  have h2 : pyIndex 2 r = 0 ∨ pyIndex 2 r = 1 := by
    unfold pyIndex
    rw [if_neg (by decide)]
    omega
  rcases h2 with h | h <;> rw [h] <;> decide

/-- Every attempt on that configuration collides: the two length-1 ships must
both occupy `(0,0)`. -/
theorem c8_attempt (rng : Rng) (pos : ℕ) :
    drawAttempt (Board.mk0 1 [1, 1]) rng false 0 [1] [] ∅ pos = .collide (pos + 1 + 1) := by
  unfold drawAttempt
  rw [if_neg Bool.false_ne_true]
  simp only [c8_pick 0 (rng pos) (Or.inl rfl)]
  simp only [drawShips, c8_pick 1 (rng (pos + 1)) (Or.inr rfl)]
  rw [if_pos (by decide)]

theorem c8_loop (rng : Rng) :
    ∀ fuel pos : ℕ, drawLoop (Board.mk0 1 [1, 1]) rng false 0 [1] [] ∅ fuel pos = .spin := by
  intro fuel
  induction fuel with
  | zero => intro pos; rfl
  | succ fuel ih =>
    intro pos
    simp only [drawLoop, c8_attempt]
    exact ih (pos + 1 + 1)

/-- On the over-constrained 1×1 configuration the sampler retries forever:
for every amount of fuel it is still spinning, and no error or shortfall is
ever surfaced. -/
theorem c8_spin (rng : Rng) (fuel pos : ℕ) :
    randomBoard (Board.mk0 1 [1, 1]) true [] 1 rng fuel pos = .spin := by
  show drawBatch (Board.mk0 1 [1, 1]) rng false 0 [1] [] ∅ 1 fuel pos = .spin
  simp only [drawBatch, c8_loop]

/-- C8 counterexample: with a bound of 1000 attempts on a maximally
constrained configuration, the sampler has neither produced a population nor
surfaced any distinct exhaustion condition — it is still retrying, so no
`SamplingExhaustion` is ever reported. -/
theorem samplingExhaustion_counterexample :
    randomBoard (Board.mk0 1 [1, 1]) true [] 1 rngZero 1000 0 = .spin :=
  c8_spin rngZero 1000 0

/-- C8 (amended): whenever `randomBoard` returns, the population has exactly
`batch_size` elements (never fewer), but an unsatisfiable constraint set
makes it retry without bound — for every attempt budget it is still spinning
and no exhaustion condition exists. -/
theorem sampler_no_exhaustion :
    (∀ (b : Board) (initial : Bool) (names : List ℕ) (batch : ℕ) (rng : Rng)
       (fuel pos : ℕ) (vs : List (List Placement × Finset Cell)) (pos' : ℕ),
       randomBoard b initial names batch rng fuel pos = .ok vs pos' →
       vs.length = batch) ∧
    (∀ (rng : Rng) (fuel pos : ℕ),
       randomBoard (Board.mk0 1 [1, 1]) true [] 1 rng fuel pos = .spin) :=
  ⟨fun _ _ _ _ _ _ _ _ _ h => randomBoard_ok_length h, c8_spin⟩

/-- Witness for C8 (amended) at concrete inputs. -/
theorem sampler_no_exhaustion_witness :
    ([([({((0 : ℕ), (0 : ℕ))} : Finset Cell)], ({((0 : ℕ), (0 : ℕ))} : Finset Cell))] :
      List (List Placement × Finset Cell)).length = 1 ∧
    randomBoard (Board.mk0 1 [1, 1]) true [] 1 rngZero 3 0 = .spin :=
  ⟨sampler_no_exhaustion.1 (Board.mk0 2 [1]) true [] 1 rngZero 5 0 _ 1 (by decide),
   sampler_no_exhaustion.2 rngZero 3 0⟩

/-- C7 counterexample: `BattleshipBoard.__init__` performs no validation at
all — with a ship longer than the board it succeeds silently, producing an
empty catalog; the failure only happens later, inside fleet sampling, as an
unhandled `IndexError` (not any configuration check). -/
theorem configValidation_counterexample :
    Board.mk0 1 [2] =
      { dim := 1, shipLengths := [2], possShipsDict := [[]], possShipsNumDict := [0] } ∧
    new_game 1 [2] 10 rngZero 3 0 = .crash .indexError := by
  constructor <;> decide

/-- C7 (amended): construction performs no configuration validation, yet an
invalid configuration can never yield an engine: an empty ship list makes
`new_game` fail immediately with the tuple-unpacking `ValueError`, and a ship
longer than the board makes every fleet-sampling attempt abort (`IndexError`
on the empty catalog) or collide, so `new_game` never returns normally. -/
theorem new_game_invalid_config :
    (∀ (dim boards : ℕ) (rng : Rng) (fuel pos : ℕ),
       new_game dim [] boards rng fuel pos = .crash .valueError) ∧
    (∀ (dim : ℕ) (ships : List ℕ) (boards : ℕ) (rng : Rng) (fuel pos i len : ℕ),
       (ships.take 26)[i]? = some len → dim < len →
       (new_game dim ships boards rng fuel pos).isOk = false) := by
  constructor
  · intro dim boards rng fuel pos
    rfl
  · intro dim ships boards rng fuel pos i len hi hlen
    have hi' : i < (ships.take 26).length := by
      rcases List.getElem?_eq_some_iff.mp hi with ⟨hlt, -⟩
      exact hlt
    have hbad : ∃ n ∈ List.range (Board.mk0 dim ships).shipLengths.length,
        (Board.mk0 dim ships).possShipsDict[n]? = some [] ∧
        (Board.mk0 dim ships).possShipsNumDict[n]? = some 0 := by
      refine ⟨i, ?_, ?_, ?_⟩
      · rw [List.mem_range]
        show i < (ships.take 26).length
        exact hi'
      · rw [mk0_dict, hi]
        have : layoutsFor dim len = [] := by
          have h0 := layoutsFor_length_gt hlen
          exact List.length_eq_zero.mp h0
        rw [Option.map, this]
      · rw [mk0_num, hi]
        rw [Option.map, layoutsFor_length_gt hlen]
    unfold new_game
    cases hrb : randomBoard (Board.mk0 dim ships) true [] 1 rng fuel pos with
    | ok vs q =>
      exact absurd hrb (@randomBoard_not_ok (Board.mk0 dim ships) true [] 1 rng fuel pos
        (List.range (Board.mk0 dim ships).shipLengths.length) rfl hbad (by omega) vs q)
    | crash e => simp only [hrb]; rfl
    | spin => simp only [hrb]; rfl

/-- Witness for C7 (amended) at concrete inputs. -/
theorem new_game_invalid_config_witness :
    new_game 2 [] 7 rngZero 4 0 = .crash .valueError ∧
    (new_game 1 [2] 10 rngZero 3 0).isOk = false :=
  ⟨new_game_invalid_config.1 2 7 rngZero 4 0,
   new_game_invalid_config.2 1 [2] 10 rngZero 3 0 0 2 (by decide) (by decide)⟩

theorem pruneOne_sublist (st : ShipStatus) (hits misses : Finset Cell) (lm : ℕ)
    (lst : List Placement) : (pruneOne st hits misses lm lst).Sublist lst := by
  unfold pruneOne
  split <;> split <;> exact List.filter_sublist _

theorem mem_pruneOne {st : ShipStatus} {hits misses : Finset Cell} {lm : ℕ}
    {lst : List Placement} {k : Placement} :
    k ∈ pruneOne st hits misses lm lst ↔ k ∈ lst ∧ keepCond st hits misses lm k := by
  unfold pruneOne keepCond
  split <;> split <;> rw [List.mem_filter] <;> simp

/-- Effect of the pruning fold on each catalog entry. -/
theorem foldl_pruneStep (hits misses : Finset Cell) (lm : ℕ) (sts : List ShipStatus) :
    ∀ (idxs : List ℕ) (bd : Board), idxs.Nodup →
    (∀ j ∈ idxs, j < bd.possShipsDict.length) →
    bd.possShipsNumDict.length = bd.possShipsDict.length →
    (idxs.foldl (pruneStep hits misses lm sts) bd).dim = bd.dim ∧
    (idxs.foldl (pruneStep hits misses lm sts) bd).shipLengths = bd.shipLengths ∧
    (idxs.foldl (pruneStep hits misses lm sts) bd).possShipsDict.length =
      bd.possShipsDict.length ∧
    (idxs.foldl (pruneStep hits misses lm sts) bd).possShipsNumDict.length =
      bd.possShipsNumDict.length ∧
    (∀ j, j ∉ idxs →
      (idxs.foldl (pruneStep hits misses lm sts) bd).possShipsDict[j]? =
        bd.possShipsDict[j]? ∧
      (idxs.foldl (pruneStep hits misses lm sts) bd).possShipsNumDict[j]? =
        bd.possShipsNumDict[j]?) ∧
    (∀ j ∈ idxs, ∀ lst, bd.possShipsDict[j]? = some lst →
      (idxs.foldl (pruneStep hits misses lm sts) bd).possShipsDict[j]? =
        some (if lst.length = 1 then lst
              else pruneOne (sts.getD j default) hits misses lm lst) ∧
      (idxs.foldl (pruneStep hits misses lm sts) bd).possShipsNumDict[j]? =
        (if lst.length = 1 then bd.possShipsNumDict[j]?
         else some (pruneOne (sts.getD j default) hits misses lm lst).length)) := by
  intro idxs
  induction idxs with
  | nil =>
    intro bd _ _ _
    exact ⟨rfl, rfl, rfl, rfl, fun j _ => ⟨rfl, rfl⟩, fun j hj => absurd hj (by simp)⟩
  | cons i idxs ih =>
    intro bd hnodup hlt hnumlen
    obtain ⟨hinotin0, hnodup'⟩ := List.pairwise_cons.mp hnodup
    have hinotin : i ∉ idxs := fun hmem => hinotin0 i hmem rfl
    have hilt : i < bd.possShipsDict.length := hlt i (List.mem_cons_self i idxs)
    have hlst : bd.possShipsDict[i]? = some (bd.possShipsDict.getD i []) := by
      rw [List.getD_eq_getElem?_getD, List.getElem?_eq_getElem hilt]
      rfl
    set lst := bd.possShipsDict.getD i [] with hlstdef
    have hfold : (i :: idxs).foldl (pruneStep hits misses lm sts) bd =
        idxs.foldl (pruneStep hits misses lm sts) (pruneStep hits misses lm sts bd i) :=
      rfl
    by_cases h1 : lst.length = 1
    · have hstep : pruneStep hits misses lm sts bd i = bd := by
        unfold pruneStep
        rw [← hlstdef, if_pos h1]
      rw [hfold, hstep]
      obtain ⟨ha, hb, hc, hd, he, hf⟩ := ih bd hnodup' (fun j hj => hlt j (List.mem_cons_of_mem _ hj)) hnumlen
      refine ⟨ha, hb, hc, hd, ?_, ?_⟩
      · intro j hj
        exact he j (fun hmem => hj (List.mem_cons_of_mem _ hmem))
      · intro j hj lst0 hlst0
        rcases List.mem_cons.mp hj with rfl | hj
        · have := he j hinotin
          rw [hlst] at hlst0
          injection hlst0 with heq0
          subst heq0
          simp only [if_pos h1]
          exact ⟨this.1.trans hlst, this.2⟩
        · exact hf j hj lst0 hlst0
    · set lst' := pruneOne (sts.getD i default) hits misses lm lst with hlstp
      set bd1 := { bd with possShipsDict := bd.possShipsDict.set i lst',
                           possShipsNumDict := bd.possShipsNumDict.set i lst'.length } with hbd1
      have hstep : pruneStep hits misses lm sts bd i = bd1 := by
        rw [hbd1]
        unfold pruneStep
        rw [← hlstdef, if_neg h1, ← hlstp]
      have hlen1 : bd1.possShipsDict.length = bd.possShipsDict.length :=
        List.length_set _ _ _
      have hlenn1 : bd1.possShipsNumDict.length = bd.possShipsNumDict.length :=
        List.length_set _ _ _
      rw [hfold, hstep]
      obtain ⟨ha, hb, hc, hd, he, hf⟩ := ih bd1 hnodup'
        (fun j hj => by rw [hlen1]; exact hlt j (List.mem_cons_of_mem _ hj))
        (by rw [hlen1, hlenn1, hnumlen])
      refine ⟨ha, hb, hc.trans hlen1, hd.trans hlenn1, ?_, ?_⟩
      · intro j hj
        have hji : i ≠ j := fun hcontra => hj (hcontra ▸ List.mem_cons_self i idxs)
        have := he j (fun hmem => hj (List.mem_cons_of_mem _ hmem))
        refine ⟨this.1.trans ?_, this.2.trans ?_⟩
        · exact List.getElem?_set_ne hji
        · exact List.getElem?_set_ne hji
      · intro j hj lst0 hlst0
        rcases List.mem_cons.mp hj with rfl | hj
        · have := he j hinotin
          rw [hlst] at hlst0
          injection hlst0 with heq0
          subst heq0
          simp only [if_neg h1]
          constructor
          · refine this.1.trans ?_
            exact List.getElem?_set_eq hilt
          · refine this.2.trans ?_
            exact List.getElem?_set_eq (by rw [hnumlen]; exact hilt)
        · have hbd1j : bd1.possShipsDict[j]? = bd.possShipsDict[j]? :=
            List.getElem?_set_ne (by intro hcontra; subst hcontra; exact hinotin hj)
          obtain ⟨hx, hy⟩ := hf j hj lst0 (by rw [hbd1j]; exact hlst0)
          refine ⟨hx, hy.trans ?_⟩
          by_cases h2 : lst0.length = 1
          · rw [if_pos h2, if_pos h2]
            exact List.getElem?_set_ne (by intro hcontra; subst hcontra; exact hinotin hj)
          · rw [if_neg h2, if_neg h2]

/-- Effect of `update_possible_ship_positions` on the board, per ship. -/
theorem upsp_spec (p : Player)
    (hlen : p.board.possShipsDict.length = nShips p)
    (hnumlen : p.board.possShipsNumDict.length = p.board.possShipsDict.length) :
    (update_possible_ship_positions p).board.dim = p.board.dim ∧
    (update_possible_ship_positions p).board.shipLengths = p.board.shipLengths ∧
    (update_possible_ship_positions p).board.possShipsDict.length = nShips p ∧
    (∀ i < nShips p,
      candList (update_possible_ship_positions p) i =
        (if (candList p i).length = 1 then candList p i
         else pruneOne (shipStat p i) p.hits p.misses p.last_move (candList p i))) ∧
    (p.board.possShipsNumDict = p.board.possShipsDict.map List.length →
      (update_possible_ship_positions p).board.possShipsNumDict =
        (update_possible_ship_positions p).board.possShipsDict.map List.length) := by
  have hkey := foldl_pruneStep p.hits p.misses p.last_move p.statuses
    (List.range (nShips p)) p.board (List.nodup_range _)
    (fun j hj => by rw [hlen]; exact List.mem_range.mp hj) hnumlen
  obtain ⟨ha, hb, hc, hd, he, hf⟩ := hkey
  have hboard : (update_possible_ship_positions p).board =
      (List.range (nShips p)).foldl
        (pruneStep p.hits p.misses p.last_move p.statuses) p.board := rfl
  have hget : ∀ i < nShips p, p.board.possShipsDict[i]? = some (candList p i) := by
    intro i hi
    unfold candList
    rw [List.getD_eq_getElem?_getD, List.getElem?_eq_getElem (by rw [hlen]; exact hi)]
    rfl
  refine ⟨by rw [hboard, ha], by rw [hboard, hb], by rw [hboard, hc, hlen], ?_, ?_⟩
  · intro i hi
    have := (hf i (List.mem_range.mpr hi) (candList p i) (hget i hi)).1
    unfold candList
    rw [List.getD_eq_getElem?_getD, hboard]
    rw [this]
    rfl
  · intro hnums
    refine List.ext_getElem? ?_
    intro j
    rw [List.getElem?_map]
    by_cases hj : j < nShips p
    · obtain ⟨hx, hy⟩ := hf j (List.mem_range.mpr hj) (candList p j) (hget j hj)
      rw [hboard, hx, hy]
      by_cases h1 : (candList p j).length = 1
      · rw [if_pos h1, if_pos h1, hnums, List.getElem?_map, hget j hj]
      · rw [if_neg h1, if_neg h1]
        rfl
    · obtain ⟨hx, hy⟩ := he j (fun hmem => hj (List.mem_range.mp hmem))
      rw [hboard, hx, hy, hnums, List.getElem?_map]

/-- Effect of the attribution loop when exactly ship `j` contains the hit
cell. -/
theorem attributeHit_eq {c : Cell} :
    ∀ {ships : List Placement} {sts : List ShipStatus} {j : ℕ},
    ships.length = sts.length → j < ships.length →
    c ∈ ships.getD j ∅ → (∀ i, i < ships.length → i ≠ j → c ∉ ships.getD i ∅) →
    attributeHit c ships sts =
      sts.set j
        { sts.getD j default with
          hit_count := (sts.getD j default).hit_count + 1
          confirmed_pos := insert c (sts.getD j default).confirmed_pos
          sunk := if (sts.getD j default).hit_count + 1 = (ships.getD j ∅).card then true
                  else (sts.getD j default).sunk } := by
  intro ships
  induction ships with
  | nil =>
    intro sts j _ hj _ _
    cases hj
  | cons ship ships ih =>
    intro sts j hlen hj hc hothers
    cases sts with
    | nil => cases hlen
    | cons st sts =>
      cases j with
      | zero =>
        simp only [List.getD_cons_zero] at hc ⊢
        unfold attributeHit
        rw [if_pos hc]
        rfl
      | succ j =>
        have hc0 : c ∉ ship := by
          have := hothers 0 (by simp) (by simp)
          simpa using this
        simp only [List.getD_cons_succ] at hc ⊢
        unfold attributeHit
        rw [if_neg hc0]
        have := @ih sts j (by simpa using hlen) (by simpa using hj) hc
          (fun i hi hij => by
            have := hothers (i + 1) (by simpa using hi) (by omega)
            simpa using this)
        rw [this]
        rfl

theorem len1_singleton {p : Player} (hInv : GameInv p) {i : ℕ} (hi : i < nShips p)
    (h1 : (candList p i).length = 1) : candList p i = [truthShip p i] := by
  obtain ⟨a, ha⟩ := List.length_eq_one.mp h1
  have := hInv.truth_mem i hi
  rw [ha] at this ⊢
  rcases List.mem_singleton.mp this with rfl
  rfl

theorem owner_exists {p : Player} (hInv : GameInv p) {c : Cell}
    (hc : c ∈ p.enemy_board) :
    ∃ j, j < nShips p ∧ c ∈ truthShip p j ∧
      ∀ i, i < nShips p → i ≠ j → c ∉ truthShip p i := by
  rw [hInv.enemy_eq] at hc
  obtain ⟨s, hs, hcs⟩ := mem_unionAll.mp hc
  obtain ⟨j, hj, hsj⟩ := List.mem_iff_getElem.mp hs
  have hjn : j < nShips p := by rw [← hInv.len_enemy]; exact hj
  have htr : truthShip p j = s := by
    unfold truthShip
    rw [List.getD_eq_getElem?_getD, List.getElem?_eq_getElem hj, hsj]
    rfl
  refine ⟨j, hjn, by rw [htr]; exact hcs, ?_⟩
  intro i hi hij hmem
  exact Finset.disjoint_left.mp (hInv.truth_disj i hi j hjn hij) hmem (by rw [htr]; exact hcs)

theorem keepCond_lm1 {st : ShipStatus} {hits misses : Finset Cell} {k : Placement} :
    keepCond st hits misses 1 k ↔ k ∩ misses = ∅ := by
  unfold keepCond
  by_cases h : st.confirmed_pos ≠ ∅ <;> simp [h]

theorem getD_set_self {sts : List ShipStatus} {j : ℕ} (hj : j < sts.length)
    (a : ShipStatus) : (sts.set j a).getD j default = a := by
  rw [List.getD_eq_getElem?_getD, List.getElem?_set_eq hj]
  rfl

theorem getD_set_ne {sts : List ShipStatus} {i j : ℕ} (hij : j ≠ i)
    (a : ShipStatus) : (sts.set j a).getD i default = sts.getD i default := by
  rw [List.getD_eq_getElem?_getD, List.getElem?_set_ne hij, ← List.getD_eq_getElem?_getD]

theorem update_inv_hit {p : Player} (hInv : GameInv p)
    (hPop : ∀ t ∈ p.random_boards,
      t.card = p.board.shipLengths.sum ∧ p.hits ⊆ t ∧ Disjoint t p.misses)
    {c : Cell} (hc1 : c ∈ p.enemy_board) (hc2 : c ∉ p.hits) :
    GameInv (update_possible_ship_positions
      { p with hits := insert c p.hits, num_hits := p.num_hits + 1, last_move := 2,
               statuses := attributeHit c p.enemy_ships p.statuses }) := by
  obtain ⟨j, hjn, hcj, hothers⟩ := owner_exists hInv hc1
  have hlenes : p.enemy_ships.length = p.statuses.length :=
    hInv.len_enemy.trans hInv.len_stat.symm
  have hjlen : j < p.enemy_ships.length := by rw [hInv.len_enemy]; exact hjn
  have hjst : j < p.statuses.length := by rw [hInv.len_stat]; exact hjn
  have hothers' : ∀ i, i < p.enemy_ships.length → i ≠ j → c ∉ p.enemy_ships.getD i ∅ := by
    intro i hi hij
    exact hothers i (by rw [← hInv.len_enemy]; exact hi) hij
  have hattr : attributeHit c p.enemy_ships p.statuses =
      p.statuses.set j
        { shipStat p j with
          hit_count := (shipStat p j).hit_count + 1
          confirmed_pos := insert c (shipStat p j).confirmed_pos
          sunk := if (shipStat p j).hit_count + 1 = (truthShip p j).card then true
                  else (shipStat p j).sunk } :=
    attributeHit_eq hlenes hjlen hcj hothers'
  set p1 : Player :=
    { p with hits := insert c p.hits, num_hits := p.num_hits + 1, last_move := 2,
             statuses := attributeHit c p.enemy_ships p.statuses } with hp1
  have hcand1 : ∀ i, candList p1 i = candList p i := fun i => rfl
  have hstat1 : ∀ i, shipStat p1 i = (attributeHit c p.enemy_ships p.statuses).getD i default :=
    fun i => rfl
  have hstatj : shipStat p1 j =
      { shipStat p j with
        hit_count := (shipStat p j).hit_count + 1
        confirmed_pos := insert c (shipStat p j).confirmed_pos
        sunk := if (shipStat p j).hit_count + 1 = (truthShip p j).card then true
                else (shipStat p j).sunk } := by
    rw [hstat1, hattr, getD_set_self hjst]
  have hstati : ∀ i, i ≠ j → shipStat p1 i = shipStat p i := by
    intro i hij
    rw [hstat1, hattr, getD_set_ne (fun hji => hij hji.symm)]
    rfl
  have hcnotconf : c ∉ (shipStat p j).confirmed_pos := by
    rw [hInv.conf_eq j hjn]
    exact fun hmem => hc2 (Finset.mem_inter.mp hmem).1
  have hconfj : (shipStat p1 j).confirmed_pos = insert c p.hits ∩ truthShip p j := by
    rw [hstatj]
    show insert c (shipStat p j).confirmed_pos = _
    rw [hInv.conf_eq j hjn, Finset.insert_inter_of_mem hcj]
  have hcntj : (shipStat p1 j).hit_count = (shipStat p1 j).confirmed_pos.card := by
    rw [hstatj]
    show (shipStat p j).hit_count + 1 = (insert c (shipStat p j).confirmed_pos).card
    rw [Finset.card_insert_of_not_mem hcnotconf, hInv.cnt_eq j hjn]
  have hconfi : ∀ i, i < nShips p → i ≠ j →
      (shipStat p1 i).confirmed_pos = insert c p.hits ∩ truthShip p i := by
    intro i hi hij
    rw [hstati i hij, hInv.conf_eq i hi, Finset.insert_inter_of_not_mem (hothers i hi hij)]
  have hcnti : ∀ i, i ≠ j →
      (shipStat p1 i).hit_count = (shipStat p i).hit_count ∧
      (shipStat p1 i).confirmed_pos = (shipStat p i).confirmed_pos := by
    intro i hij
    rw [hstati i hij]
    exact ⟨rfl, rfl⟩
  have hlen1 : p1.board.possShipsDict.length = nShips p1 := hInv.len_dict
  have hnumlen1 : p1.board.possShipsNumDict.length = p1.board.possShipsDict.length := by
    show p.board.possShipsNumDict.length = p.board.possShipsDict.length
    rw [hInv.nums_eq, List.length_map]
  obtain ⟨hdim2, hsl2, hdlen2, hcand2, hnums2⟩ := upsp_spec p1 hlen1 hnumlen1
  have hnsh2 : nShips (update_possible_ship_positions p1) = nShips p := by
    unfold nShips
    rw [hsl2]
  have hsl2' : (update_possible_ship_positions p1).board.shipLengths = p.board.shipLengths := hsl2
  have htr2 : ∀ i, truthShip (update_possible_ship_positions p1) i = truthShip p i :=
    fun i => rfl
  have hst2 : ∀ i, shipStat (update_possible_ship_positions p1) i = shipStat p1 i :=
    fun i => rfl
  have hsh2 : ∀ i, shipLen (update_possible_ship_positions p1) i = shipLen p i := by
    intro i
    unfold shipLen
    rw [hsl2']
  -- survivors of the pruning and what they satisfy
  have hconfjne : (shipStat p1 j).confirmed_pos ≠ ∅ := by
    rw [hconfj]
    intro hempty
    have hcmem : c ∈ insert c p.hits ∩ truthShip p j :=
      Finset.mem_inter.mpr ⟨Finset.mem_insert_self _ _, hcj⟩
    rw [hempty] at hcmem
    exact absurd hcmem (Finset.not_mem_empty c)
  have hmem2 : ∀ i, i < nShips p → ∀ k, k ∈ candList (update_possible_ship_positions p1) i →
      k ∈ candList p i ∧
      ((candList p i).length = 1 ∨
        keepCond (shipStat p1 i) (insert c p.hits) p.misses 2 k) := by
    intro i hi k hk
    rw [hcand2 i hi] at hk
    by_cases h1 : (candList p1 i).length = 1
    · rw [if_pos h1] at hk
      exact ⟨hk, Or.inl h1⟩
    · rw [if_neg h1] at hk
      have := mem_pruneOne.mp hk
      exact ⟨this.1, Or.inr this.2⟩
  -- the true placement survives
  have hkeepS : ∀ i, i < nShips p →
      keepCond (shipStat p1 i) (insert c p.hits) p.misses 2 (truthShip p i) := by
    intro i hi
    unfold keepCond
    by_cases hij : i = j
    · subst hij
      rw [if_pos hconfjne, if_neg (by omega)]
      constructor
      · rw [hconfj, hcntj, hconfj]
        congr 1
        exact Finset.inter_eq_left.mpr Finset.inter_subset_right
      · rw [hcntj, hconfj]
    · by_cases hconf : (shipStat p1 i).confirmed_pos ≠ ∅
      · rw [if_pos hconf, if_neg (by omega)]
        have hpc := hconfi i hi hij
        constructor
        · rw [hpc, (hcnti i hij).1, hInv.cnt_eq i hi, ← (hcnti i hij).2, hpc]
          congr 1
          exact Finset.inter_eq_left.mpr Finset.inter_subset_right
        · rw [(hcnti i hij).1, hInv.cnt_eq i hi, ← (hcnti i hij).2, hpc]
      · rw [if_neg hconf, if_neg (by omega)]
        push_neg at hconf
        rw [← hconfi i hi hij]
        exact hconf
  have htm2 : ∀ i, i < nShips p →
      truthShip p i ∈ candList (update_possible_ship_positions p1) i := by
    intro i hi
    rw [hcand2 i hi]
    by_cases h1 : (candList p1 i).length = 1
    · rw [if_pos h1]
      exact hInv.truth_mem i hi
    · rw [if_neg h1]
      exact mem_pruneOne.mpr ⟨hInv.truth_mem i hi, hkeepS i hi⟩
  -- facts about all survivors
  have hsurv : ∀ i, i < nShips p → ∀ k, k ∈ candList (update_possible_ship_positions p1) i →
      k ∈ candList p i ∧
      ((shipStat p1 i).confirmed_pos ≠ ∅ →
        ((shipStat p1 i).confirmed_pos ∩ k).card = (shipStat p1 i).hit_count ∧
        ((insert c p.hits) ∩ k).card = (shipStat p1 i).hit_count) := by
    intro i hi k hk
    obtain ⟨hold, hcase⟩ := hmem2 i hi k hk
    refine ⟨hold, ?_⟩
    intro hconf
    rcases hcase with h1 | hkeep
    · -- fully determined ship: its only candidate is the true placement
      have hsingle := len1_singleton hInv hi h1
      rw [hsingle] at hold
      rcases List.mem_singleton.mp hold with rfl
      by_cases hij : i = j
      · subst hij
        constructor
        · rw [hcntj]
          congr 1
          rw [hconfj]
          exact Finset.inter_eq_left.mpr Finset.inter_subset_right
        · rw [← hconfj, hcntj]
      · constructor
        · rw [(hcnti i hij).1, hInv.cnt_eq i hi, ← (hcnti i hij).2]
          congr 1
          rw [hconfi i hi hij]
          exact Finset.inter_eq_left.mpr Finset.inter_subset_right
        · rw [← hconfi i hi hij, (hcnti i hij).1, hInv.cnt_eq i hi, ← (hcnti i hij).2]
    · unfold keepCond at hkeep
      rw [if_pos hconf, if_neg (by omega)] at hkeep
      exact ⟨hkeep.1, hkeep.2.symm⟩
  refine
    { len_enemy := ?_, len_stat := ?_, len_dict := ?_, nums_eq := ?_, target_eq := ?_
      order_perm := ?_, truth_card := ?_, truth_disj := ?_, enemy_eq := ?_
      truth_mem := ?_, conf_eq := ?_, cnt_eq := ?_, hits_sub := ?_, miss_disj := ?_
      num_hits_eq := ?_, dict_card := ?_, dict_miss := ?_, dict_conf := ?_
      dict_hits := ?_, hits_cov := ?_, boards_card := ?_, boards_hits := ?_
      boards_miss := ?_, boards_len := ?_ }
  · rw [hnsh2]; exact hInv.len_enemy
  · rw [hnsh2]
    show (attributeHit c p.enemy_ships p.statuses).length = nShips p
    rw [hattr, List.length_set]
    exact hInv.len_stat
  · rw [hnsh2, hdlen2]; rfl
  · exact hnums2 hInv.nums_eq
  · show p.target_hits = _
    rw [hsl2']
    exact hInv.target_eq
  · rw [hnsh2]; exact hInv.order_perm
  · intro i hi
    rw [hnsh2] at hi
    rw [htr2, hsh2]
    exact hInv.truth_card i hi
  · intro i hi i' hi'
    rw [hnsh2] at hi hi'
    rw [htr2, htr2]
    exact hInv.truth_disj i hi i' hi'
  · show p.enemy_board = unionAll p.enemy_ships
    exact hInv.enemy_eq
  · intro i hi
    rw [hnsh2] at hi
    rw [htr2]
    exact htm2 i hi
  · intro i hi
    rw [hnsh2] at hi
    rw [hst2, htr2]
    show (shipStat p1 i).confirmed_pos = insert c p.hits ∩ truthShip p i
    by_cases hij : i = j
    · subst hij; exact hconfj
    · exact hconfi i hi hij
  · intro i hi
    rw [hnsh2] at hi
    rw [hst2]
    by_cases hij : i = j
    · subst hij; exact hcntj
    · rw [(hcnti i hij).1, (hcnti i hij).2]
      exact hInv.cnt_eq i hi
  · show insert c p.hits ⊆ p.enemy_board
    exact Finset.insert_subset hc1 hInv.hits_sub
  · show Disjoint p.misses p.enemy_board
    exact hInv.miss_disj
  · show p.num_hits + 1 = (insert c p.hits).card
    rw [Finset.card_insert_of_not_mem hc2, hInv.num_hits_eq]
  · intro i hi k hk
    rw [hnsh2] at hi
    rw [hsh2]
    exact hInv.dict_card i hi k (hsurv i hi k hk).1
  · intro i hi k hk
    rw [hnsh2] at hi
    show Disjoint k p.misses
    exact hInv.dict_miss i hi k (hsurv i hi k hk).1
  · intro i hi k hk
    rw [hnsh2] at hi
    rw [hst2]
    by_cases hconf : (shipStat p1 i).confirmed_pos = ∅
    · rw [hconf]; exact Finset.empty_subset k
    · have := ((hsurv i hi k hk).2 hconf).1
      have hsubk : (shipStat p1 i).confirmed_pos ∩ k ⊆ (shipStat p1 i).confirmed_pos :=
        Finset.inter_subset_left
      have hcard : (shipStat p1 i).confirmed_pos.card ≤
          ((shipStat p1 i).confirmed_pos ∩ k).card := by
        rw [this]
        by_cases hij : i = j
        · subst hij; rw [hcntj]
        · rw [(hcnti i hij).1, hInv.cnt_eq i hi, (hcnti i hij).2]
      have := Finset.eq_of_subset_of_card_le hsubk hcard
      intro a ha
      exact (Finset.mem_inter.mp (this ▸ ha)).2
  · intro i hi k hk hconf
    rw [hnsh2] at hi
    rw [hst2] at hconf ⊢
    have := (hsurv i hi k hk).2 hconf
    exact ⟨this.1, this.2⟩
  · intro a ha
    rw [hnsh2]
    have ha' : a ∈ insert c p.hits := ha
    rcases Finset.mem_insert.mp ha' with rfl | ha2
    · refine ⟨j, hjn, ?_⟩
      rw [hst2, hstatj]
      show a ∈ insert a (shipStat p j).confirmed_pos
      exact Finset.mem_insert_self _ _
    · obtain ⟨i, hi, hmem⟩ := hInv.hits_cov a ha2
      refine ⟨i, hi, ?_⟩
      rw [hst2]
      by_cases hij : i = j
      · subst hij
        rw [hstatj]
        show a ∈ insert c (shipStat p i).confirmed_pos
        exact Finset.mem_insert_of_mem hmem
      · rw [(hcnti i hij).2]
        exact hmem
  · intro t ht
    rw [hsl2']
    exact (hPop t ht).1
  · intro hlm
    exact absurd hlm (by
      show (2 : ℕ) ≠ 1
      omega)
  · intro _ t ht
    exact (hPop t ht).2.2
  · show p.random_boards.length ≤ p.n_boards
    exact hInv.boards_len

theorem mem_subset_unionAll {x : Finset Cell} {l : List (Finset Cell)} (hx : x ∈ l) :
    x ⊆ unionAll l := by
  intro a ha
  exact mem_unionAll.mpr ⟨x, hx, ha⟩

theorem truthShip_subset_enemy {p : Player} (hInv : GameInv p) {i : ℕ}
    (hi : i < nShips p) : truthShip p i ⊆ p.enemy_board := by
  rw [hInv.enemy_eq]
  refine mem_subset_unionAll ?_
  have hlt : i < p.enemy_ships.length := by rw [hInv.len_enemy]; exact hi
  have : truthShip p i = p.enemy_ships[i] := by
    unfold truthShip
    rw [List.getD_eq_getElem?_getD, List.getElem?_eq_getElem hlt]
    rfl
  rw [this]
  exact List.getElem_mem hlt

theorem update_inv_miss {p : Player} (hInv : GameInv p)
    (hPop : ∀ t ∈ p.random_boards,
      t.card = p.board.shipLengths.sum ∧ p.hits ⊆ t ∧ Disjoint t p.misses)
    {c : Cell} (hc1 : c ∉ p.enemy_board) :
    GameInv (update_possible_ship_positions
      { p with last_move := 1, misses := insert c p.misses }) := by
  set p1 : Player := { p with last_move := 1, misses := insert c p.misses } with hp1
  have hmissd : Disjoint (insert c p.misses) p.enemy_board := by
    rw [Finset.disjoint_insert_left]
    exact ⟨hc1, hInv.miss_disj⟩
  have hlen1 : p1.board.possShipsDict.length = nShips p1 := hInv.len_dict
  have hnumlen1 : p1.board.possShipsNumDict.length = p1.board.possShipsDict.length := by
    show p.board.possShipsNumDict.length = p.board.possShipsDict.length
    rw [hInv.nums_eq, List.length_map]
  obtain ⟨hdim2, hsl2, hdlen2, hcand2, hnums2⟩ := upsp_spec p1 hlen1 hnumlen1
  have hnsh2 : nShips (update_possible_ship_positions p1) = nShips p := by
    unfold nShips
    rw [hsl2]
  have hsl2' : (update_possible_ship_positions p1).board.shipLengths = p.board.shipLengths := hsl2
  have htr2 : ∀ i, truthShip (update_possible_ship_positions p1) i = truthShip p i :=
    fun i => rfl
  have hst2 : ∀ i, shipStat (update_possible_ship_positions p1) i = shipStat p i :=
    fun i => rfl
  have hsh2 : ∀ i, shipLen (update_possible_ship_positions p1) i = shipLen p i := by
    intro i
    unfold shipLen
    rw [hsl2']
  have hSd : ∀ i, i < nShips p → truthShip p i ∩ insert c p.misses = ∅ := by
    intro i hi
    rw [← Finset.disjoint_iff_inter_eq_empty]
    exact (hmissd.mono_right (truthShip_subset_enemy hInv hi)).symm
  have hmem2 : ∀ i, i < nShips p → ∀ k, k ∈ candList (update_possible_ship_positions p1) i →
      k ∈ candList p i ∧ Disjoint k (insert c p.misses) := by
    intro i hi k hk
    rw [hcand2 i hi] at hk
    by_cases h1 : (candList p1 i).length = 1
    · rw [if_pos h1] at hk
      have hsingle := len1_singleton hInv hi h1
      have hk' : k ∈ candList p i := hk
      rw [hsingle] at hk'
      rcases List.mem_singleton.mp hk' with rfl
      exact ⟨hk, Finset.disjoint_iff_inter_eq_empty.mpr (hSd i hi)⟩
    · rw [if_neg h1] at hk
      obtain ⟨hold, hkeep⟩ := mem_pruneOne.mp hk
      rw [keepCond_lm1] at hkeep
      exact ⟨hold, Finset.disjoint_iff_inter_eq_empty.mpr hkeep⟩
  have htm2 : ∀ i, i < nShips p →
      truthShip p i ∈ candList (update_possible_ship_positions p1) i := by
    intro i hi
    rw [hcand2 i hi]
    by_cases h1 : (candList p1 i).length = 1
    · rw [if_pos h1]
      exact hInv.truth_mem i hi
    · rw [if_neg h1]
      refine mem_pruneOne.mpr ⟨hInv.truth_mem i hi, ?_⟩
      rw [keepCond_lm1]
      exact hSd i hi
  refine
    { len_enemy := ?_, len_stat := ?_, len_dict := ?_, nums_eq := ?_, target_eq := ?_
      order_perm := ?_, truth_card := ?_, truth_disj := ?_, enemy_eq := ?_
      truth_mem := ?_, conf_eq := ?_, cnt_eq := ?_, hits_sub := ?_, miss_disj := ?_
      num_hits_eq := ?_, dict_card := ?_, dict_miss := ?_, dict_conf := ?_
      dict_hits := ?_, hits_cov := ?_, boards_card := ?_, boards_hits := ?_
      boards_miss := ?_, boards_len := ?_ }
  · rw [hnsh2]; exact hInv.len_enemy
  · rw [hnsh2]; exact hInv.len_stat
  · rw [hnsh2, hdlen2]; rfl
  · exact hnums2 hInv.nums_eq
  · show p.target_hits = _
    rw [hsl2']
    exact hInv.target_eq
  · rw [hnsh2]; exact hInv.order_perm
  · intro i hi
    rw [hnsh2] at hi
    rw [htr2, hsh2]
    exact hInv.truth_card i hi
  · intro i hi i' hi'
    rw [hnsh2] at hi hi'
    rw [htr2, htr2]
    exact hInv.truth_disj i hi i' hi'
  · show p.enemy_board = unionAll p.enemy_ships
    exact hInv.enemy_eq
  · intro i hi
    rw [hnsh2] at hi
    rw [htr2]
    exact htm2 i hi
  · intro i hi
    rw [hnsh2] at hi
    rw [hst2, htr2]
    exact hInv.conf_eq i hi
  · intro i hi
    rw [hnsh2] at hi
    rw [hst2]
    exact hInv.cnt_eq i hi
  · show p.hits ⊆ p.enemy_board
    exact hInv.hits_sub
  · exact hmissd
  · show p.num_hits = p.hits.card
    exact hInv.num_hits_eq
  · intro i hi k hk
    rw [hnsh2] at hi
    rw [hsh2]
    exact hInv.dict_card i hi k (hmem2 i hi k hk).1
  · intro i hi k hk
    rw [hnsh2] at hi
    exact (hmem2 i hi k hk).2
  · intro i hi k hk
    rw [hnsh2] at hi
    rw [hst2]
    exact hInv.dict_conf i hi k (hmem2 i hi k hk).1
  · intro i hi k hk hconf
    rw [hnsh2] at hi
    rw [hst2] at hconf ⊢
    exact hInv.dict_hits i hi k (hmem2 i hi k hk).1 hconf
  · intro a ha
    rw [hnsh2]
    obtain ⟨i, hi, hmem⟩ := hInv.hits_cov a ha
    exact ⟨i, hi, by rw [hst2]; exact hmem⟩
  · intro t ht
    rw [hsl2']
    exact (hPop t ht).1
  · intro _ t ht
    exact (hPop t ht).2.1
  · intro hlm
    exact absurd rfl hlm
  · show p.random_boards.length ≤ p.n_boards
    exact hInv.boards_len

/-- A move on an already-classified cell is a complete no-op: the returned
state is the input state, every field unchanged. -/
theorem update_redundant {p : Player} (hInv : GameInv p) {x y : ℕ}
    (h : ((x, y) : Cell) ∈ p.hits ∪ p.misses) : update_game_state p x y = p := by
  simp only [update_game_state]
  rcases Finset.mem_union.mp h with hh | hm
  · rw [if_pos (hInv.hits_sub hh), if_neg (not_not_intro hh)]
  · have hne : ((x, y) : Cell) ∉ p.enemy_board :=
      Finset.disjoint_left.mp hInv.miss_disj hm
    rw [if_neg hne, if_neg (not_not_intro hm)]

theorem update_inv {p : Player} (hInv : GameInv p)
    (hPop : ∀ t ∈ p.random_boards,
      t.card = p.board.shipLengths.sum ∧ p.hits ⊆ t ∧ Disjoint t p.misses)
    (x y : ℕ) : GameInv (update_game_state p x y) := by
  by_cases hc1 : ((x, y) : Cell) ∈ p.enemy_board
  · by_cases hc2 : ((x, y) : Cell) ∈ p.hits
    · rw [update_redundant hInv (Finset.mem_union_left _ hc2)]
      exact hInv
    · have heq : update_game_state p x y =
          update_possible_ship_positions
            { p with hits := insert ((x, y) : Cell) p.hits, num_hits := p.num_hits + 1,
                     last_move := 2,
                     statuses := attributeHit ((x, y) : Cell) p.enemy_ships p.statuses } := by
        simp only [update_game_state]
        rw [if_pos hc1, if_pos hc2]
      rw [heq]
      exact update_inv_hit hInv hPop hc1 hc2
  · by_cases hm : ((x, y) : Cell) ∈ p.misses
    · rw [update_redundant hInv (Finset.mem_union_right _ hm)]
      exact hInv
    · have heq : update_game_state p x y =
          update_possible_ship_positions
            { p with last_move := 1, misses := insert ((x, y) : Cell) p.misses } := by
        simp only [update_game_state]
        rw [if_neg hc1, if_pos hm]
      rw [heq]
      exact update_inv_miss hInv hPop hc1

theorem generate_inv {p : Player} {rng : Rng} {fuel pos : ℕ} {p' : Player} {pos' : ℕ}
    (hInv : GameInv p)
    (h : generate_random_boards p rng fuel pos = .ok p' pos') :
    GameInv p' ∧ PopFresh p' ∧ p'.board = p.board ∧ p'.hits = p.hits ∧
    p'.misses = p.misses ∧ p'.enemy_board = p.enemy_board ∧
    p'.last_move = p.last_move ∧ p'.num_hits = p.num_hits ∧
    p'.n_boards = p.n_boards ∧ p'.statuses = p.statuses ∧
    p'.target_hits = p.target_hits := by
  simp only [generate_random_boards] at h
  set kept := (if p.last_move = 1
    then p.random_boards.filter (fun b => decide (b ∩ p.misses = ∅))
    else p.random_boards.filter (fun b => decide (p.hits \ b = ∅))) with hkeptdef
  set order := p.name_order.mergeSort
    (fun a b => decide (sortKey p.board a ≤ sortKey p.board b)) with horderdef
  have horderperm : order.Perm (List.range (nShips p)) :=
    (List.mergeSort_perm p.name_order _).trans hInv.order_perm
  have hkept : ∀ b ∈ kept, b.card = p.board.shipLengths.sum ∧ p.hits ⊆ b ∧
      Disjoint b p.misses := by
    intro b hb
    rw [hkeptdef] at hb
    by_cases hlm : p.last_move = 1
    · rw [if_pos hlm] at hb
      obtain ⟨hmem, hcond⟩ := List.mem_filter.mp hb
      refine ⟨hInv.boards_card b hmem, hInv.boards_hits hlm b hmem, ?_⟩
      rw [Finset.disjoint_iff_inter_eq_empty]
      exact of_decide_eq_true hcond
    · rw [if_neg hlm] at hb
      obtain ⟨hmem, hcond⟩ := List.mem_filter.mp hb
      refine ⟨hInv.boards_card b hmem, ?_, hInv.boards_miss hlm b hmem⟩
      rw [← Finset.sdiff_eq_empty_iff_subset]
      exact of_decide_eq_true hcond
  have hkeptsub : kept.length ≤ p.random_boards.length := by
    rw [hkeptdef]
    by_cases hlm : p.last_move = 1
    · rw [if_pos hlm]; exact List.length_filter_le _ _
    · rw [if_neg hlm]; exact List.length_filter_le _ _
  have hHS : ∀ m ∈ order, p.board.possShipsNumDict[m]? = some 1 →
      ∃ lst, p.board.possShipsDict[m]? = some lst ∧ lst = [truthShip p m] := by
    intro m hmo h1
    have hm : m < nShips p := List.mem_range.mp (horderperm.mem_iff.mp hmo)
    have hmd : m < p.board.possShipsDict.length := by rw [hInv.len_dict]; exact hm
    rw [hInv.nums_eq, List.getElem?_map, List.getElem?_eq_getElem hmd] at h1
    simp only [Option.map] at h1
    injection h1 with h1
    have hcand : candList p m = p.board.possShipsDict[m] := by
      unfold candList
      rw [List.getD_eq_getElem?_getD, List.getElem?_eq_getElem hmd]
      rfl
    refine ⟨p.board.possShipsDict[m], List.getElem?_eq_getElem hmd, ?_⟩
    rw [← hcand]
    exact len1_singleton hInv hm (by rw [hcand]; exact h1)
  have hHpw : ∀ m ∈ order, ∀ m' ∈ order, m ≠ m' →
      Disjoint (truthShip p m) (truthShip p m') := by
    intro m hm m' hm' hne
    exact hInv.truth_disj m (List.mem_range.mp (horderperm.mem_iff.mp hm))
      m' (List.mem_range.mp (horderperm.mem_iff.mp hm')) hne
  have hordernd : order.Nodup := (List.nodup_range _).perm horderperm.symm
  split at h
  · cases h
  · cases h
  next results q hrb =>
    have horderne : ¬ order.isEmpty := by
      intro hemp
      rw [List.isEmpty_iff] at hemp
      have h0 : p.board.shipLengths.length = 0 := by
        have hlen := horderperm.length_eq
        rw [hemp, List.length_nil, List.length_range] at hlen
        exact hlen.symm
      have hmem := randomBoard_mem_spec (S := truthShip p)
        false order (List.range p.board.shipLengths.length)
        (by rw [hemp]; rfl) (List.nodup_range _)
        (by
          intro m hm h1
          exact absurd hm (by rw [h0]; simp))
        (by
          intro m hm m' hm' hne
          exact absurd hm (by rw [h0]; simp))
        hrb
      obtain ⟨-, hne, -⟩ := hmem
      rw [h0] at hne
      exact hne rfl
    have hspec := randomBoard_mem_spec (S := truthShip p) false order order
      (by rw [Bool.false_or, if_neg horderne]) hordernd hHS hHpw hrb
    obtain ⟨hlenres, -, hmemres⟩ := hspec
    have hfresh : ∀ t ∈ results.map Prod.snd,
        t.card = p.board.shipLengths.sum ∧ p.hits ⊆ t ∧ Disjoint t p.misses := by
      intro t ht
      obtain ⟨v, hv, rfl⟩ := List.mem_map.mp ht
      obtain ⟨names2, hperm, -, hf2, hun, hpw⟩ := hmemres v hv
      have hmemn : ∀ m ∈ names2, m < nShips p := by
        intro m hm
        exact List.mem_range.mp ((hperm.trans horderperm).mem_iff.mp hm)
      have hpick : ∀ m ∈ names2, ∀ k, pickedFrom p.board m k →
          Disjoint k p.misses ∧ k.card = shipLen p m ∧
          (shipStat p m).confirmed_pos ⊆ k := by
        intro m hm k hk
        obtain ⟨lst, hd, hkl⟩ := hk
        have hkc : k ∈ candList p m := by
          unfold candList
          rw [List.getD_eq_getElem?_getD, hd]
          exact hkl
        exact ⟨hInv.dict_miss m (hmemn m hm) k hkc,
          hInv.dict_card m (hmemn m hm) k hkc,
          hInv.dict_conf m (hmemn m hm) k hkc⟩
      obtain ⟨hmap, hdisj, hcov⟩ := forall₂_picked_facts hf2 hpick
      refine ⟨?_, ?_, ?_⟩
      · rw [hun, card_unionAll_of_pairwise hpw, hmap]
        have hps : (names2.map (shipLen p)).sum =
            ((List.range (nShips p)).map (shipLen p)).sum :=
          List.Perm.sum_eq (List.Perm.map _ (hperm.trans horderperm))
        rw [hps]
        show ((List.range p.board.shipLengths.length).map
          (fun i => p.board.shipLengths.getD i 0)).sum = _
        rw [map_getD_range 0 p.board.shipLengths]
      · intro a ha
        obtain ⟨i, hi, hconf⟩ := hInv.hits_cov a ha
        have hin2 : i ∈ names2 :=
          (hperm.trans horderperm).mem_iff.mpr (List.mem_range.mpr hi)
        rw [hun]
        exact hcov i hin2 hconf
      · rw [hun]
        have : ∀ k ∈ v.1, Disjoint p.misses k := fun k hk => (hdisj k hk).symm
        exact (disjoint_unionAll_right.mpr this).symm
    cases h
    have hhits : (⟨p.board, p.enemy_ships, p.enemy_board,
        p.statuses, p.n_boards, p.hits, p.misses,
        kept ++ results.map Prod.snd, order, p.target_hits,
        p.last_move, p.num_hits⟩ : Player) =
        { p with random_boards := kept ++ results.map Prod.snd, name_order := order } := rfl
    rw [hhits]
    have hall : ∀ t ∈ kept ++ results.map Prod.snd,
        t.card = p.board.shipLengths.sum ∧ p.hits ⊆ t ∧ Disjoint t p.misses := by
      intro t ht
      rcases List.mem_append.mp ht with ht | ht
      · exact hkept t ht
      · exact hfresh t ht
    have hlentot : (kept ++ results.map Prod.snd).length = p.n_boards := by
      rw [List.length_append, List.length_map, hlenres]
      have := hInv.boards_len
      omega
    refine ⟨?_, ⟨hlentot, hall⟩, rfl, rfl, rfl, rfl, rfl, rfl, rfl, rfl, rfl⟩
    exact
      { len_enemy := hInv.len_enemy
        len_stat := hInv.len_stat
        len_dict := hInv.len_dict
        nums_eq := hInv.nums_eq
        target_eq := hInv.target_eq
        order_perm := horderperm
        truth_card := hInv.truth_card
        truth_disj := hInv.truth_disj
        enemy_eq := hInv.enemy_eq
        truth_mem := hInv.truth_mem
        conf_eq := hInv.conf_eq
        cnt_eq := hInv.cnt_eq
        hits_sub := hInv.hits_sub
        miss_disj := hInv.miss_disj
        num_hits_eq := hInv.num_hits_eq
        dict_card := hInv.dict_card
        dict_miss := hInv.dict_miss
        dict_conf := hInv.dict_conf
        dict_hits := hInv.dict_hits
        hits_cov := hInv.hits_cov
        boards_card := fun t ht => (hall t ht).1
        boards_hits := fun _ t ht => (hall t ht).2.1
        boards_miss := fun _ t ht => (hall t ht).2.2
        boards_len := by rw [hlentot] }

theorem new_game_inv {dim : ℕ} {ships : List ℕ} {boards : ℕ} {rng : Rng}
    {fuel pos : ℕ} {p : Player} {pos' : ℕ}
    (h : new_game dim ships boards rng fuel pos = .ok p pos') : GameInv p := by
  simp only [new_game] at h
  split at h
  · cases h
  · cases h
  next results q hrb =>
    split at h
    · cases h
    next fleetPair hfp =>
      split at h
      · cases h
      next eb hstar =>
        have hspec := randomBoard_mem_spec (S := fun _ => ∅)
          (b := Board.mk0 dim ships) true []
          (List.range (Board.mk0 dim ships).shipLengths.length)
          rfl (List.nodup_range _)
          (by
            intro m hm h1
            rw [mk0_num] at h1
            exfalso
            cases hx : (ships.take 26)[m]? with
            | none => rw [hx] at h1; cases h1
            | some len =>
              rw [hx] at h1
              simp at h1
              exact layoutsFor_length_ne_one dim len h1)
          (by intro m _ m' _ _; exact Finset.disjoint_empty_left _)
          hrb
        obtain ⟨hlen1, hne, hmem⟩ := hspec
        obtain ⟨hlt0, hfp0⟩ := List.getElem?_eq_some_iff.mp hfp
        have hfpmem : fleetPair ∈ results := by
          rw [← hfp0]
          exact List.getElem_mem hlt0
        obtain ⟨names2, hperm, hbr2, hf2, hunion, hpw⟩ := hmem fleetPair hfpmem
        set n := (Board.mk0 dim ships).shipLengths.length with hn
        have hnpos : 0 < n := by
          by_contra hcontra
          push_neg at hcontra
          rw [Nat.le_zero] at hcontra
          rw [hcontra] at hne
          exact hne rfl
        have hnames2 : names2 = List.range n := by
          refine hbr2 ?_
          have hhead : (List.range n).headD 0 = 0 := by
            obtain ⟨m, hm⟩ := Nat.exists_eq_succ_of_ne_zero (by omega : n ≠ 0)
            rw [hm, List.range_succ_eq_map]
            rfl
          rw [hhead, mk0_num]
          have h0 : (ships.take 26)[0]? = some ((ships.take 26)[0]) :=
            List.getElem?_eq_getElem hnpos
          rw [h0]
          intro hcontra
          simp at hcontra
          exact layoutsFor_length_ne_one dim _ hcontra
        subst hnames2
        obtain ⟨hflen, hfget⟩ := List.forall₂_iff_get.mp hf2
        rw [List.length_range] at hflen
        have hfget' : ∀ i, i < n → pickedFrom (Board.mk0 dim ships) i (fleetPair.1.getD i ∅) := by
          intro i hi
          have h1 : i < (List.range n).length := by rw [List.length_range]; exact hi
          have h2 : i < fleetPair.1.length := by rw [← hflen]; exact hi
          have := hfget i h1 h2
          rw [List.get_eq_getElem, List.get_eq_getElem, List.getElem_range] at this
          have hgd : fleetPair.1.getD i ∅ = fleetPair.1[i] := by
            rw [List.getD_eq_getElem?_getD, List.getElem?_eq_getElem h2]
            rfl
          rw [hgd]
          exact this
        have hcand : ∀ i, i < n → ∀ k, pickedFrom (Board.mk0 dim ships) i k →
            k ∈ layoutsFor dim ((ships.take 26).getD i 0) := by
          intro i hi k hk
          obtain ⟨lst, hd, hkl⟩ := hk
          rw [mk0_dict] at hd
          have hi' : i < (ships.take 26).length := hi
          rw [List.getElem?_eq_getElem hi'] at hd
          have hd2 : some (layoutsFor dim ((ships.take 26)[i])) = some lst := hd
          injection hd2 with hd3
          subst hd3
          have hgd : (ships.take 26).getD i 0 = (ships.take 26)[i] := by
            rw [List.getD_eq_getElem?_getD, List.getElem?_eq_getElem hi']
            rfl
          rw [hgd]
          exact hkl
        have hcandB : ∀ i, i < n →
            (Board.mk0 dim ships).possShipsDict.getD i [] =
            layoutsFor dim ((ships.take 26).getD i 0) := by
          intro i hi
          have hi' : i < (Board.mk0 dim ships).possShipsDict.length := by
            show i < ((ships.take 26).map (layoutsFor dim)).length
            rw [List.length_map]
            exact hi
          rw [List.getD_eq_getElem?_getD, List.getElem?_eq_getElem hi']
          show ((ships.take 26).map (layoutsFor dim))[i] = _
          rw [List.getElem_map]
          congr 1
          rw [List.getD_eq_getElem?_getD, List.getElem?_eq_getElem (by exact hi)]
          rfl
        have hstat0 : ∀ i, i < n →
            (List.replicate n (⟨false, ∅, 0⟩ : ShipStatus)).getD i default =
              (⟨false, ∅, 0⟩ : ShipStatus) := by
          intro i hi
          rw [List.getD_eq_getElem?_getD, List.getElem?_replicate, if_pos hi]
          rfl
        obtain ⟨hebeq, hfne⟩ := unionStar_ok hstar
        cases h
        refine
          { len_enemy := ?_, len_stat := ?_, len_dict := ?_, nums_eq := rfl, target_eq := rfl
            order_perm := List.Perm.refl _, truth_card := ?_, truth_disj := ?_, enemy_eq := ?_
            truth_mem := ?_, conf_eq := ?_, cnt_eq := ?_, hits_sub := ?_, miss_disj := ?_
            num_hits_eq := ?_, dict_card := ?_, dict_miss := ?_, dict_conf := ?_
            dict_hits := ?_, hits_cov := ?_, boards_card := ?_, boards_hits := ?_
            boards_miss := ?_, boards_len := ?_ }
        · exact hflen.symm
        · exact List.length_replicate _ _
        · show ((ships.take 26).map (layoutsFor dim)).length = _
          rw [List.length_map]
          rfl
        · intro i hi
          have := hcand i hi _ (hfget' i hi)
          unfold shipLen
          show (fleetPair.1.getD i ∅).card = (Board.mk0 dim ships).shipLengths.getD i 0
          rw [layoutsFor_card this]
          rfl
        · intro i hi j hj hij
          show Disjoint (fleetPair.1.getD i ∅) (fleetPair.1.getD j ∅)
          have hibound : i < fleetPair.1.length := by rw [← hflen]; exact hi
          have hjbound : j < fleetPair.1.length := by rw [← hflen]; exact hj
          have hgdi : fleetPair.1.getD i ∅ = fleetPair.1[i] := by
            rw [List.getD_eq_getElem?_getD, List.getElem?_eq_getElem hibound]
            rfl
          have hgdj : fleetPair.1.getD j ∅ = fleetPair.1[j] := by
            rw [List.getD_eq_getElem?_getD, List.getElem?_eq_getElem hjbound]
            rfl
          rw [hgdi, hgdj]
          rcases Nat.lt_or_ge i j with hlt | hge
          · exact List.pairwise_iff_getElem.mp hpw i j hibound hjbound hlt
          · have hlt2 : j < i := by omega
            exact (List.pairwise_iff_getElem.mp hpw j i hjbound hibound hlt2).symm
        · exact hebeq
        · intro i hi
          show fleetPair.1.getD i ∅ ∈ (Board.mk0 dim ships).possShipsDict.getD i []
          rw [hcandB i hi]
          exact hcand i hi _ (hfget' i hi)
        · intro i hi
          show (shipStat _ i).confirmed_pos = ∅ ∩ _
          unfold shipStat
          show ((List.replicate n (⟨false, ∅, 0⟩ : ShipStatus)).getD i default).confirmed_pos = _
          rw [hstat0 i hi, Finset.empty_inter]
        · intro i hi
          unfold shipStat
          show ((List.replicate n (⟨false, ∅, 0⟩ : ShipStatus)).getD i default).hit_count = _
          rw [hstat0 i hi]
          rfl
        · exact Finset.empty_subset _
        · exact Finset.disjoint_empty_left _
        · rfl
        · intro i hi k hk
          have hk2 : k ∈ layoutsFor dim ((ships.take 26).getD i 0) := by
            rw [← hcandB i hi]
            exact hk
          unfold shipLen
          rw [layoutsFor_card hk2]
          rfl
        · intro i hi k hk
          exact Finset.disjoint_empty_right _
        · intro i hi k hk
          unfold shipStat
          show ((List.replicate n (⟨false, ∅, 0⟩ : ShipStatus)).getD i default).confirmed_pos ⊆ k
          rw [hstat0 i hi]
          exact Finset.empty_subset _
        · intro i hi k hk hconf
          exfalso
          apply hconf
          unfold shipStat
          show ((List.replicate n (⟨false, ∅, 0⟩ : ShipStatus)).getD i default).confirmed_pos = ∅
          rw [hstat0 i hi]
        · intro a ha
          exact absurd ha (Finset.not_mem_empty a)
        · intro t ht
          cases ht
        · intro _ t ht
          cases ht
        · intro _ t ht
          cases ht
        · exact Nat.zero_le _

/-- Every reachable engine state satisfies the game invariant. -/
theorem reach_inv {p : Player} (h : Reach p) : GameInv p := by
  induction h with
  | started dim ships boards rng fuel pos p pos' hng => exact new_game_inv hng
  | refreshed p rng fuel pos p' pos' hre hgen ih => exact (generate_inv ih hgen).1
  | moved p rng fuel pos p' pos' x y hre hgen ih =>
    obtain ⟨hInv', hPop', -⟩ := generate_inv ih hgen
    exact update_inv hInv' (fun t ht => hPop'.2 t ht) x y

/-- C9: in every reachable state, each ship's true secret placement is still
in its candidate list, so no candidate list is ever empty. -/
theorem pruning_sound (p : Player) (hre : Reach p) :
    ∀ i, i < nShips p →
      truthShip p i ∈ candList p i ∧ candList p i ≠ [] := by
  intro i hi
  have hInv := reach_inv hre
  refine ⟨hInv.truth_mem i hi, ?_⟩
  intro hempty
  have := hInv.truth_mem i hi
  rw [hempty] at this
  cases this

/-- C2: in every reachable state, every surviving candidate placement is
consistent with the whole observation history: it avoids every miss cell,
and for a ship with confirmed hits it meets both the confirmed-hit set and
the global hit set in exactly `hit_count` cells. -/
theorem candidates_consistent (p : Player) (hre : Reach p) :
    ∀ i, i < nShips p → ∀ k ∈ candList p i,
      k ∩ p.misses = ∅ ∧
      ((shipStat p i).confirmed_pos ≠ ∅ →
        (k ∩ (shipStat p i).confirmed_pos).card = (shipStat p i).hit_count ∧
        (k ∩ p.hits).card = (shipStat p i).hit_count) := by
  intro i hi k hk
  have hInv := reach_inv hre
  refine ⟨?_, ?_⟩
  · rw [← Finset.disjoint_iff_inter_eq_empty]
    exact hInv.dict_miss i hi k hk
  · intro hconf
    obtain ⟨h1, h2⟩ := hInv.dict_hits i hi k hk hconf
    rw [Finset.inter_comm] at h1 h2
    exact ⟨h1, h2⟩

/-- C5: `check_all_sunk` is true exactly when the cumulative hit count equals
the total ship length, and in a reachable state it can only be true when
every occupied cell has been hit. -/
theorem check_all_sunk_spec (p : Player) (hre : Reach p) :
    (check_all_sunk p = true ↔ p.num_hits = p.board.shipLengths.sum) ∧
    (check_all_sunk p = true → p.enemy_board ⊆ p.hits) := by
  have hInv := reach_inv hre
  constructor
  · unfold check_all_sunk
    rw [decide_eq_true_iff, hInv.target_eq]
  · intro hsunk
    unfold check_all_sunk at hsunk
    rw [decide_eq_true_iff, hInv.target_eq] at hsunk
    have hmap : List.map Finset.card p.enemy_ships = p.board.shipLengths := by
      refine List.ext_getElem? ?_
      intro m
      rw [List.getElem?_map]
      by_cases hm : m < nShips p
      · have hm1 : m < p.enemy_ships.length := by rw [hInv.len_enemy]; exact hm
        have hm2 : m < p.board.shipLengths.length := hm
        rw [List.getElem?_eq_getElem hm1, List.getElem?_eq_getElem hm2]
        show some ((p.enemy_ships.get ⟨m, hm1⟩).card) =
          some (p.board.shipLengths.get ⟨m, hm2⟩)
        have htr : truthShip p m = p.enemy_ships.get ⟨m, hm1⟩ := by
          unfold truthShip
          rw [List.getD_eq_getElem?_getD, List.getElem?_eq_getElem hm1]
          rfl
        have hsl : shipLen p m = p.board.shipLengths.get ⟨m, hm2⟩ := by
          unfold shipLen
          rw [List.getD_eq_getElem?_getD, List.getElem?_eq_getElem hm2]
          rfl
        rw [← htr, hInv.truth_card m hm, hsl]
      · have hm3 : p.board.shipLengths.length ≤ m := Nat.le_of_not_lt hm
        rw [List.getElem?_eq_none (by rw [hInv.len_enemy]; exact hm3),
          List.getElem?_eq_none hm3]
        rfl
    have hcard : p.enemy_board.card = p.board.shipLengths.sum := by
      rw [hInv.enemy_eq, card_unionAll_of_pairwise, hmap]
      rw [List.pairwise_iff_getElem]
      intro a c ha hc hac
      have han : a < nShips p := by rw [← hInv.len_enemy]; exact ha
      have hcn : c < nShips p := by rw [← hInv.len_enemy]; exact hc
      have htra : truthShip p a = p.enemy_ships[a] := by
        unfold truthShip
        rw [List.getD_eq_getElem?_getD, List.getElem?_eq_getElem ha]
        rfl
      have htrc : truthShip p c = p.enemy_ships[c] := by
        unfold truthShip
        rw [List.getD_eq_getElem?_getD, List.getElem?_eq_getElem hc]
        rfl
      rw [← htra, ← htrc]
      exact hInv.truth_disj a han c hcn (by omega)
    have hhits : p.hits.card = p.enemy_board.card := by
      rw [hcard, ← hInv.num_hits_eq]
      exact hsunk
    rw [Finset.eq_of_subset_of_card_le hInv.hits_sub (by omega)]

/-- C6: submitting an already-classified cell a second time is a no-op: the
engine state after the call is exactly the state before it (hits, misses,
counts, last move, every ship status, candidate lists, and the population
are all unchanged). -/
theorem redundant_move_noop (p : Player) (hre : Reach p) (x y : ℕ)
    (h : ((x, y) : Cell) ∈ p.hits ∪ p.misses) :
    update_game_state p x y = p :=
  update_redundant (reach_inv hre) h

theorem pairCode_injective : Function.Injective (fun c : Cell => Nat.pair c.1 c.2) := by
  intro a b h
  have h1 := congrArg Nat.unpair h
  simp only [Nat.unpair_pair, Prod.mk.injEq] at h1
  exact Prod.ext_iff.mpr h1

theorem unpair_injective : Function.Injective Nat.unpair :=
  Function.LeftInverse.injective (g := fun q : ℕ × ℕ => Nat.pair q.1 q.2)
    (fun n => Nat.pair_unpair n)

theorem cellList_nodup (s : Finset Cell) : (cellList s).Nodup := by
  unfold cellList
  exact List.Nodup.map unpair_injective (Finset.sort_nodup _ _)

theorem mem_cellList {s : Finset Cell} {c : Cell} : c ∈ cellList s ↔ c ∈ s := by
  unfold cellList
  rw [List.mem_map]
  constructor
  · rintro ⟨x, hx, rfl⟩
    rw [Finset.mem_sort, Finset.mem_image] at hx
    obtain ⟨a, ha, rfl⟩ := hx
    rw [Nat.unpair_pair]
    exact ha
  · intro hc
    refine ⟨Nat.pair c.1 c.2, ?_, ?_⟩
    · rw [Finset.mem_sort, Finset.mem_image]
      exact ⟨c, hc, rfl⟩
    · rw [Nat.unpair_pair]

theorem cellList_length (s : Finset Cell) : (cellList s).length = s.card := by
  unfold cellList
  rw [List.length_map, Finset.length_sort,
    Finset.card_image_of_injective s pairCode_injective]

theorem counterKeys_nodup (boards : List (Finset Cell)) : (counterKeys boards).Nodup :=
  cellList_nodup _

theorem mem_counterKeys {boards : List (Finset Cell)} {c : Cell} :
    c ∈ counterKeys boards ↔ ∃ b ∈ boards, c ∈ b := by
  unfold counterKeys
  rw [mem_cellList, mem_unionAll]

theorem counterKeys_length (boards : List (Finset Cell)) :
    (counterKeys boards).length = (unionAll boards).card := cellList_length _

theorem boardCount_le (boards : List (Finset Cell)) (c : Cell) :
    boardCount boards c ≤ boards.length := List.countP_le_length _

theorem boardCount_full {boards : List (Finset Cell)} {c : Cell}
    (h : ∀ b ∈ boards, c ∈ b) : boardCount boards c = boards.length :=
  List.countP_eq_length.mpr (fun b hb => decide_eq_true (h b hb))

theorem boardCount_zero {boards : List (Finset Cell)} {c : Cell}
    (h : ∀ b ∈ boards, c ∉ b) : boardCount boards c = 0 :=
  List.countP_eq_zero.mpr (fun b hb hdec => h b hb (of_decide_eq_true hdec))

/-- The window argument behind `take_turn`: when every board of a (nonempty)
population has full cardinality `S`, contains every hit and avoids every
miss, and fewer than `S` hits have been recorded, the reversed
`most_common(len(hits)+1)` scan returns a cell that is untried, not a miss,
and of maximal occupancy count among untried cells. -/
theorem window_spec (boards : List (Finset Cell)) (H M : Finset Cell) (S : ℕ)
    (hne : boards ≠ [])
    (hcard : ∀ t ∈ boards, t.card = S)
    (hhits : ∀ t ∈ boards, H ⊆ t)
    (hmiss : ∀ t ∈ boards, Disjoint t M)
    (hlt : H.card < S) :
    ∃ t, (mostCommon boards (H.card + 1)).reverse.find?
        (fun c => decide (c ∉ H)) = some t ∧
      t ∉ H ∧ t ∉ M ∧
      ∀ u : Cell, u ∉ H → boardCount boards u ≤ boardCount boards t := by
  obtain ⟨b0, hb0⟩ := List.exists_mem_of_ne_nil boards hne
  simp only [mostCommon]
  set cnt := boardCount boards with hcnt
  set le := fun a b : Cell => decide (cnt b ≤ cnt a) with hle
  set K := counterKeys boards with hK
  set L := K.mergeSort le with hL
  set k := H.card + 1 with hk
  have hperm : L.Perm K := List.mergeSort_perm K le
  have hLnodup : L.Nodup := hperm.nodup_iff.mpr (counterKeys_nodup boards)
  have htrans : ∀ a b c : Cell, le a b → le b c → le a c := by
    intro a b c hab hbc
    simp only [hle, decide_eq_true_eq] at hab hbc ⊢
    omega
  have htotal : ∀ a b : Cell, le a b || le b a := by
    intro a b
    simp only [hle, Bool.or_eq_true, decide_eq_true_eq]
    omega
  have hsorted : L.Pairwise (fun a b : Cell => le a b = true) := by
    rw [hL]
    exact @List.sorted_mergeSort _ le htrans htotal K
  have hklen : k ≤ L.length := by
    rw [hperm.length_eq, hK, counterKeys_length]
    have h1 : S ≤ (unionAll boards).card := by
      rw [← hcard b0 hb0]
      exact Finset.card_le_card (mem_subset_unionAll hb0)
    omega
  set W := L.take k with hW
  set D := L.drop k with hD
  have hWD : W ++ D = L := List.take_append_drop k L
  have hWlen : W.length = k := by rw [hW, List.length_take]; omega
  have hWnodup : W.Nodup := (List.take_sublist k L).nodup hLnodup
  have hcross : ∀ a ∈ W, ∀ b ∈ D, cnt b ≤ cnt a := by
    have h2 : (W ++ D).Pairwise (fun a b : Cell => le a b = true) := by
      rw [hWD]; exact hsorted
    have h3 := (List.pairwise_append.mp h2).2.2
    intro a ha b hb
    have h4 := h3 a ha b hb
    simp only [hle, decide_eq_true_eq] at h4
    exact h4
  have hmemW : ∀ x ∈ W, x ∈ K := fun x hx =>
    hperm.mem_iff.mp (List.mem_of_mem_take hx)
  have hWFcard : W.toFinset.card = k := by
    rw [List.toFinset_card_of_nodup hWnodup, hWlen]
  have hex : ∃ w ∈ W, w ∉ H := by
    by_contra hcon
    push_neg at hcon
    have hsub : W.toFinset ⊆ H := fun x hx => hcon x (List.mem_toFinset.mp hx)
    have h5 := Finset.card_le_card hsub
    omega
  have hfind : ((W.reverse).find? (fun c => decide (c ∉ H))).isSome := by
    rw [List.find?_isSome]
    obtain ⟨w, hw, hwH⟩ := hex
    exact ⟨w, List.mem_reverse.mpr hw, decide_eq_true hwH⟩
  obtain ⟨t, ht⟩ := Option.isSome_iff_exists.mp hfind
  have htpred : t ∉ H := by
    have htp := List.find?_some ht
    simp only [decide_eq_true_eq] at htp
    exact htp
  have htW : t ∈ W := List.mem_reverse.mp (List.mem_of_find?_eq_some ht)
  have htM : t ∉ M := by
    obtain ⟨b1, hb1, htb1⟩ := mem_counterKeys.mp (by rw [← hK]; exact hmemW t htW)
    exact Finset.disjoint_left.mp (hmiss b1 hb1) htb1
  refine ⟨t, ht, htpred, htM, ?_⟩
  intro u huH
  show cnt u ≤ cnt t
  by_cases huK : u ∈ K
  · have huL : u ∈ L := hperm.mem_iff.mpr huK
    rw [← hWD] at huL
    rcases List.mem_append.mp huL with huW | huD
    · by_cases hHW : ∀ x ∈ H, x ∈ W.toFinset
      · have hsubH : H ⊆ W.toFinset := fun x hx => hHW x hx
        have hcard1 : (W.toFinset \ H).card = 1 := by
          rw [Finset.card_sdiff hsubH, hWFcard]; omega
        obtain ⟨a, ha⟩ := Finset.card_eq_one.mp hcard1
        have ht' : t ∈ W.toFinset \ H :=
          Finset.mem_sdiff.mpr ⟨List.mem_toFinset.mpr htW, htpred⟩
        have hu' : u ∈ W.toFinset \ H :=
          Finset.mem_sdiff.mpr ⟨List.mem_toFinset.mpr huW, huH⟩
        rw [ha, Finset.mem_singleton] at ht' hu'
        rw [hu', ← ht']
      · push_neg at hHW
        obtain ⟨x, hxH, hxW⟩ := hHW
        have hxK : x ∈ K := by
          rw [hK, mem_counterKeys]
          exact ⟨b0, hb0, hhits b0 hb0 hxH⟩
        have hxL : x ∈ L := hperm.mem_iff.mpr hxK
        rw [← hWD] at hxL
        have hxD : x ∈ D := by
          rcases List.mem_append.mp hxL with h6 | h6
          · exact absurd (List.mem_toFinset.mpr h6) hxW
          · exact h6
        have hxN : cnt x = boards.length := by
          rw [hcnt]
          exact boardCount_full (fun b hb => hhits b hb hxH)
        have h7 : cnt x ≤ cnt t := hcross t htW x hxD
        have h8 : cnt u ≤ boards.length := by
          rw [hcnt]
          exact boardCount_le boards u
        omega
    · exact hcross t htW u huD
  · have h9 : cnt u = 0 := by
      rw [hcnt]
      refine boardCount_zero (fun b hb hub => ?_)
      exact huK (by rw [hK, mem_counterKeys]; exact ⟨b, hb, hub⟩)
    omega

/-- C1: in every reachable state with a nonempty population request and the
game not yet won, `take_turn` returns an untried cell whose occupancy count
across the refreshed population is maximal among all untried cells. -/
theorem take_turn_max_freq (p : Player) (rng : Rng) (fuel pos : ℕ)
    {res : Option Cell} {p' : Player} {pos' : ℕ}
    (hre : Reach p) (hnb : 1 ≤ p.n_boards) (hgame : p.num_hits < p.target_hits)
    (h : take_turn p rng fuel pos = .ok (res, p') pos') :
    ∃ t, res = some t ∧ t ∉ p'.hits ∧
      ∀ u : Cell, u ∉ p'.hits →
        boardCount p'.random_boards u ≤ boardCount p'.random_boards t := by
  simp only [take_turn] at h
  split at h
  · cases h
  · cases h
  next p2 pos2 hgen =>
    injection h with h1 h2
    injection h1 with hres hp2
    rw [hp2] at hgen hres
    obtain ⟨hInv2, hPop2, hbd, hh, hm, hen, hlm, hnum, hnbeq, hstat, htar⟩ :=
      generate_inv (reach_inv hre) hgen
    have hne : p'.random_boards ≠ [] := by
      refine List.ne_nil_of_length_pos ?_
      rw [hPop2.1, hnbeq]
      omega
    have hlt : p'.hits.card < p'.board.shipLengths.sum := by
      have e1 := hInv2.num_hits_eq
      have e2 := hInv2.target_eq
      rw [hnum] at e1
      rw [htar] at e2
      omega
    obtain ⟨t, hfind, htH, htM, hmax⟩ :=
      window_spec p'.random_boards p'.hits p'.misses p'.board.shipLengths.sum
        hne (fun b hb => (hPop2.2 b hb).1) (fun b hb => (hPop2.2 b hb).2.1)
        (fun b hb => (hPop2.2 b hb).2.2) hlt
    exact ⟨t, by rw [← hres]; exact hfind, htH, hmax⟩

/-- C10: in every reachable state with a nonempty population request and at
least one occupied cell still unhit, `take_turn` returns `some` cell, and
that cell is neither a recorded hit nor a recorded miss. -/
theorem take_turn_some_untried (p : Player) (rng : Rng) (fuel pos : ℕ)
    {res : Option Cell} {p' : Player} {pos' : ℕ}
    (hre : Reach p) (hnb : 1 ≤ p.n_boards) (hgame : p.num_hits < p.target_hits)
    (h : take_turn p rng fuel pos = .ok (res, p') pos') :
    ∃ t, res = some t ∧ t ∉ p'.hits ∧ t ∉ p'.misses := by
  simp only [take_turn] at h
  split at h
  · cases h
  · cases h
  next p2 pos2 hgen =>
    injection h with h1 h2
    injection h1 with hres hp2
    rw [hp2] at hgen hres
    obtain ⟨hInv2, hPop2, hbd, hh, hm, hen, hlm, hnum, hnbeq, hstat, htar⟩ :=
      generate_inv (reach_inv hre) hgen
    have hne : p'.random_boards ≠ [] := by
      refine List.ne_nil_of_length_pos ?_
      rw [hPop2.1, hnbeq]
      omega
    have hlt : p'.hits.card < p'.board.shipLengths.sum := by
      have e1 := hInv2.num_hits_eq
      have e2 := hInv2.target_eq
      rw [hnum] at e1
      rw [htar] at e2
      omega
    obtain ⟨t, hfind, htH, htM, hmax⟩ :=
      window_spec p'.random_boards p'.hits p'.misses p'.board.shipLengths.sum
        hne (fun b hb => (hPop2.2 b hb).1) (fun b hb => (hPop2.2 b hb).2.1)
        (fun b hb => (hPop2.2 b hb).2.2) hlt
    exact ⟨t, by rw [← hres]; exact hfind, htH, htM⟩

theorem wng : new_game 1 [1] 1 rngZero 9 0 = .ok wP0ex 1 := by decide

theorem wgrb : generate_random_boards wP0ex rngZero 9 1 = .ok wP1ex 2 := by
  simp only [generate_random_boards, wP0ex, List.mergeSort_singleton]
  decide

theorem wmc : mostCommon wP1ex.random_boards (wP1ex.hits.card + 1) = [(0, 0)] := by
  have h1 : counterKeys wP1ex.random_boards = [(0, 0)] := by
    simp only [counterKeys, wP1ex, wP0ex, cellList]
    rw [show unionAll [({(0, 0)} : Finset Cell)] = {(0, 0)} from by decide]
    rw [Finset.image_singleton, Finset.sort_singleton]
    decide
  simp only [mostCommon, h1, List.mergeSort_singleton]
  decide

theorem wtt : take_turn wP0ex rngZero 9 1 = .ok (some (0, 0), wP1ex) 2 := by
  simp only [take_turn, wgrb, wmc]
  decide

theorem take_turn_max_freq_witness :
    1 ≤ wP0ex.n_boards ∧ wP0ex.num_hits < wP0ex.target_hits ∧
    ∃ t, (some ((0, 0) : Cell)) = some t ∧ t ∉ wP1ex.hits ∧
      ∀ u : Cell, u ∉ wP1ex.hits →
        boardCount wP1ex.random_boards u ≤ boardCount wP1ex.random_boards t :=
  ⟨by decide, by decide,
   take_turn_max_freq wP0ex rngZero 9 1
     (Reach.started 1 [1] 1 rngZero 9 0 wP0ex 1 wng) (by decide) (by decide) wtt⟩

theorem take_turn_some_untried_witness :
    1 ≤ wP0ex.n_boards ∧ wP0ex.num_hits < wP0ex.target_hits ∧
    ∃ t, (some ((0, 0) : Cell)) = some t ∧ t ∉ wP1ex.hits ∧ t ∉ wP1ex.misses :=
  ⟨by decide, by decide,
   take_turn_some_untried wP0ex rngZero 9 1
     (Reach.started 1 [1] 1 rngZero 9 0 wP0ex 1 wng) (by decide) (by decide) wtt⟩

theorem candidates_consistent_witness :
    ({((0 : ℕ), (0 : ℕ))} : Placement) ∩ wP0ex.misses = ∅ ∧
    ((shipStat wP0ex 0).confirmed_pos ≠ ∅ →
      (({((0 : ℕ), (0 : ℕ))} : Placement) ∩
        (shipStat wP0ex 0).confirmed_pos).card = (shipStat wP0ex 0).hit_count ∧
      (({((0 : ℕ), (0 : ℕ))} : Placement) ∩
        wP0ex.hits).card = (shipStat wP0ex 0).hit_count) :=
  candidates_consistent wP0ex (Reach.started 1 [1] 1 rngZero 9 0 wP0ex 1 wng)
    0 (by decide) {((0 : ℕ), (0 : ℕ))} (by decide)

theorem check_all_sunk_spec_witness :
    (check_all_sunk wP0ex = true ↔ wP0ex.num_hits = wP0ex.board.shipLengths.sum) ∧
    (check_all_sunk wP0ex = true → wP0ex.enemy_board ⊆ wP0ex.hits) :=
  check_all_sunk_spec wP0ex (Reach.started 1 [1] 1 rngZero 9 0 wP0ex 1 wng)

theorem pruning_sound_witness :
    truthShip wP0ex 0 ∈ candList wP0ex 0 ∧ candList wP0ex 0 ≠ [] :=
  pruning_sound wP0ex (Reach.started 1 [1] 1 rngZero 9 0 wP0ex 1 wng) 0 (by decide)

theorem redundant_move_noop_witness :
    ((0, 0) : Cell) ∈ (update_game_state wP1ex 0 0).hits ∪
        (update_game_state wP1ex 0 0).misses ∧
    update_game_state (update_game_state wP1ex 0 0) 0 0 =
      update_game_state wP1ex 0 0 :=
  ⟨by decide,
   redundant_move_noop (update_game_state wP1ex 0 0)
     (Reach.moved wP0ex rngZero 9 1 wP1ex 2 0 0
       (Reach.started 1 [1] 1 rngZero 9 0 wP0ex 1 wng) wgrb)
     0 0 (by decide)⟩
